import Mathlib

/-!
ECM, the Emera component manager.

A shallow embedding of `src/pkg.elk.wtf/ecm/ECM.jsx` (the main implementation) and of
`src/pkg.elk.wtf/ecm/ECM/ECM.jsx` (the earlier, smaller implementation, namespace `ECM.Legacy`).

Conventions of the embedding.

* JavaScript strings are Lean strings; the relational operators on strings compare the
  UTF-16 code units, as JavaScript does.
* A value that may be `undefined` is an `Option`.
* A function that may throw returns `Except Err _`.
* Network and vault effects are recorded as a list of `Event`s, in the order performed.
* Recursion that the source does not bound (`addComponent`) takes a fuel argument.
-/

set_option autoImplicit false

namespace ECM

/-! ## JavaScript primitives used by the version functions -/

/-- The pieces of `s.split(".")`, on the characters of the string. -/
def splitDot : List Char → List (List Char)
  | [] => [[]]
  | c :: cs =>
    if c = '.' then [] :: splitDot cs
    else
      match splitDot cs with
      | [] => [[c]]
      | f :: fs => (c :: f) :: fs

/-- The array `version.split(".")`. -/
def split (version : String) : List String :=
  (splitDot version.data).map String.mk

/-- ECMAScript `StrWhiteSpaceChar`: the `WhiteSpace` and `LineTerminator` code points. -/
def isStrWhiteSpaceChar (c : Char) : Bool :=
  let n := c.toNat
  n == 0x09 || n == 0x0A || n == 0x0B || n == 0x0C || n == 0x0D || n == 0x20 || n == 0xA0
    || n == 0x1680 || (0x2000 ≤ n && n ≤ 0x200A) || n == 0x2028 || n == 0x2029
    || n == 0x202F || n == 0x205F || n == 0x3000 || n == 0xFEFF

/-- ECMAScript `DecimalDigit`. -/
def isDecimalDigit (c : Char) : Bool :=
  0x30 ≤ c.toNat && c.toNat ≤ 0x39

/-- ECMAScript `HexDigit`. -/
def isHexDigit (c : Char) : Bool :=
  isDecimalDigit c || (0x41 ≤ c.toNat && c.toNat ≤ 0x46) || (0x61 ≤ c.toNat && c.toNat ≤ 0x66)

/-- ECMAScript `OctalDigit`. -/
def isOctalDigit (c : Char) : Bool :=
  0x30 ≤ c.toNat && c.toNat ≤ 0x37

/-- ECMAScript `BinaryDigit`. -/
def isBinaryDigit (c : Char) : Bool :=
  c.toNat == 0x30 || c.toNat == 0x31

/-- ECMAScript `DecimalDigits` (without separators): one or more decimal digits. -/
def isDecimalDigits (cs : List Char) : Bool :=
  !cs.isEmpty && cs.all isDecimalDigit

/-- ECMAScript `SignedInteger`. -/
def isSignedInteger : List Char → Bool
  | [] => false
  | c :: cs => if c = '+' ∨ c = '-' then isDecimalDigits cs else isDecimalDigits (c :: cs)

/-- An optional ECMAScript `ExponentPart`. -/
def isExponentPartOpt : List Char → Bool
  | [] => true
  | c :: cs => (c == 'e' || c == 'E') && isSignedInteger cs

/-- ECMAScript `StrUnsignedDecimalLiteral`. -/
def isStrUnsignedDecimalLiteral (cs : List Char) : Bool :=
  cs == "Infinity".data ||
    (let intPart := cs.takeWhile isDecimalDigit
     match cs.dropWhile isDecimalDigit with
     | '.' :: rest =>
       let fracPart := rest.takeWhile isDecimalDigit
       (!intPart.isEmpty || !fracPart.isEmpty) && isExponentPartOpt (rest.dropWhile isDecimalDigit)
     | rest => !intPart.isEmpty && isExponentPartOpt rest)

/-- ECMAScript `StrDecimalLiteral`: an optionally signed `StrUnsignedDecimalLiteral`. -/
def isStrDecimalLiteral : List Char → Bool
  | [] => false
  | c :: cs =>
    if c = '+' ∨ c = '-' then isStrUnsignedDecimalLiteral cs
    else isStrUnsignedDecimalLiteral (c :: cs)

/-- ECMAScript `NonDecimalIntegerLiteral` (without separators). -/
def isNonDecimalIntegerLiteral : List Char → Bool
  | '0' :: k :: ds =>
    if k = 'x' ∨ k = 'X' then !ds.isEmpty && ds.all isHexDigit
    else if k = 'o' ∨ k = 'O' then !ds.isEmpty && ds.all isOctalDigit
    else if k = 'b' ∨ k = 'B' then !ds.isEmpty && ds.all isBinaryDigit
    else false
  | _ => false

/-- The text with leading and trailing `StrWhiteSpaceChar`s removed. -/
def trimWhiteSpace (cs : List Char) : List Char :=
  ((cs.dropWhile isStrWhiteSpaceChar).reverse.dropWhile isStrWhiteSpaceChar).reverse

/-- ECMAScript `StringNumericLiteral`: the strings on which `Number(s)` is not `NaN`. -/
def isStringNumericLiteral (cs : List Char) : Bool :=
  let t := trimWhiteSpace cs
  t.isEmpty || isStrDecimalLiteral t || isNonDecimalIntegerLiteral t

/-- The global `isNaN(x)` for `x` a string or `undefined`:
`Number(undefined)` is `NaN`, and `Number(s)` is `NaN` exactly when `s` is not a
`StringNumericLiteral`. -/
def isNaN : Option String → Bool
  | none => true
  | some s => !isStringNumericLiteral s.data

/-- The UTF-16 code units of a string. -/
def utf16 : List Char → List Nat
  | [] => []
  | c :: cs =>
    if c.toNat < 0x10000 then c.toNat :: utf16 cs
    else (0xD800 + (c.toNat - 0x10000) / 0x400) :: (0xDC00 + (c.toNat - 0x10000) % 0x400)
      :: utf16 cs

/-- Lexicographic order on code unit sequences (a proper prefix is smaller). -/
def codeUnitsLt : List Nat → List Nat → Bool
  | _, [] => false
  | [], _ :: _ => true
  | a :: as, b :: bs => a < b || (a == b && codeUnitsLt as bs)

/-- The JavaScript `x > y` where each operand is a string or `undefined`: two strings are
compared by code units, and a comparison with `undefined` is false. -/
def jsGt : Option String → Option String → Bool
  | some x, some y => codeUnitsLt (utf16 y.data) (utf16 x.data)
  | _, _ => false

/-- The JavaScript `x !== y` where each operand is a string or `undefined`. -/
def jsStrictNe (x y : Option String) : Bool :=
  x != y

/-! ## Errors -/

deriving instance DecidableEq for Except

/-- The exceptions the embedded code can raise. -/
inductive Err where
  /-- The exception `new Error(msg)`. -/
  | error (msg : String)
  /-- A `TypeError` of the runtime: a property read on `undefined` or `null`. -/
  | typeError
  /-- A rejected `fetch`, or a body that is not JSON. -/
  | network
  deriving DecidableEq, Repr

/-! ## Versions -/

/-- The object `{ major, minor, patch }` built by `readSemver`: the fields are the pieces of
the split, not numbers. -/
structure Semver where
  major : Option String
  minor : Option String
  patch : Option String
  deriving DecidableEq, Repr

/-- The function `validateSemver` of the source. -/
def validateSemver (version : String) : Except Err Unit :=
  let parts := split version
  if isNaN (parts.get? 0) || isNaN (parts.get? 1) || isNaN (parts.get? 2) then
    .error (.error "Invalid version format")
  else .ok ()

/-- The function `readSemver` of the source. -/
def readSemver (version : String) : Except Err Semver :=
  match validateSemver version with
  | .error e => .error e
  | .ok () =>
    let parts := split version
    .ok { major := parts.get? 0, minor := parts.get? 1, patch := parts.get? 2 }

/-- The function `isUpgrade` of the source. -/
def isUpgrade (current latest : String) : Except Err Bool :=
  match readSemver current with
  | .error e => .error e
  | .ok currentSemver =>
    match readSemver latest with
    | .error e => .error e
    | .ok latestSemver =>
      if jsGt latestSemver.major currentSemver.major then .ok true
      else if jsGt latestSemver.minor currentSemver.minor then .ok true
      else if jsGt latestSemver.patch currentSemver.patch then .ok true
      else .ok false

/-- The function `satisfies` of the source. -/
def satisfies (current target : String) : Except Err Bool :=
  match readSemver current with
  | .error e => .error e
  | .ok currentSemver =>
    match readSemver target with
    | .error e => .error e
    | .ok targetSemver =>
      if jsStrictNe targetSemver.major currentSemver.major then .ok false
      else if jsStrictNe targetSemver.minor currentSemver.minor then .ok false
      else .ok true

/-! ## Data model -/

mutual
/-- A record of the manifest: the object `{ ...manifest, filePath, manifest, requires }` built
by `addComponent`. The string fields are present; `isProtected` and `update` are the truthiness
of the fields `protected` and `update`. -/
inductive Component where
  | mk (name version manifest source filePath : String) (isProtected update : Bool)
      (requires : Requires)
/-- The field `requires` of a record: absent, or an array. -/
inductive Requires where
  | absent
  | list (items : Entries)
/-- An array of records; a slot may hold `null` (or `undefined`). -/
inductive Entries where
  | nil
  | null (rest : Entries)
  | cons (c : Component) (rest : Entries)
end

deriving instance DecidableEq, Repr for Component, Requires, Entries

namespace Component

/-- The field `name`. -/
def name : Component → String
  | mk n _ _ _ _ _ _ _ => n

/-- The field `version`. -/
def version : Component → String
  | mk _ v _ _ _ _ _ _ => v

/-- The field `manifest`: the URL the record was installed from. -/
def manifest : Component → String
  | mk _ _ m _ _ _ _ _ => m

/-- The field `source`. -/
def source : Component → String
  | mk _ _ _ s _ _ _ _ => s

/-- The field `filePath`. -/
def filePath : Component → String
  | mk _ _ _ _ f _ _ _ => f

/-- The truthiness of the field `protected`. -/
def isProtected : Component → Bool
  | mk _ _ _ _ _ p _ _ => p

/-- The truthiness of the field `update`. -/
def update : Component → Bool
  | mk _ _ _ _ _ _ u _ => u

/-- The field `requires`. -/
def requires : Component → Requires
  | mk _ _ _ _ _ _ _ r => r

end Component

namespace Entries

/-- The array holding the given records, in order, with no empty slot. -/
def ofList : List Component → Entries
  | [] => nil
  | c :: cs => cons c (ofList cs)

/-- The slots of the array, in order. -/
def toList : Entries → List (Option Component)
  | nil => []
  | null rest => none :: toList rest
  | cons c rest => some c :: toList rest

end Entries

/-! ## The index file -/

mutual
/-- The closure `addExports` of `updateIndex`, with the array `allExports` it pushes to as an
argument and as the result. -/
def addExports (allExports : List String) : Component → List String
  | .mk name _ _ _ _ _ _ requires =>
    if name ∈ allExports then allExports
    else addExportsRequires (allExports ++ [name]) requires
/-- The statement `if (component.requires) { for ... }` of `addExports`. -/
def addExportsRequires (allExports : List String) : Requires → List String
  | .absent => allExports
  | .list items => addExportsEach allExports items
/-- A loop `for (const c of array) addExports(c)`, skipping the empty slots: in the inner loop
by `if (!requirement) continue`, in the outer loop by the `if (!component) return` that opens
`addExports`. -/
def addExportsEach (allExports : List String) : Entries → List String
  | .nil => allExports
  | .null rest => addExportsEach allExports rest
  | .cons c rest => addExportsEach (addExports allExports c) rest
end

/-- The array `allExports` when the outer loop of `updateIndex` ends. -/
def allExports (updatedComponents : Entries) : List String :=
  addExportsEach [] updatedComponents

/-- The template string that renders one export statement. -/
def exportStatement (name : String) : String :=
  "export * from \"./" ++ name ++ "\";"

/-- The method `Array.prototype.join` on an array of strings. -/
def join (sep : String) : List String → String
  | [] => ""
  | [x] => x
  | x :: y :: rest => x ++ sep ++ join sep (y :: rest)

/-- The string `indexCode` of `updateIndex`. -/
def indexCode (updatedComponents : Entries) : String :=
  join "\n" ((allExports updatedComponents).map exportStatement)

/-! ## Effects -/

/-- An effect on the network or on the vault. -/
inductive Event where
  /-- The call `fetch(url)`. -/
  | fetch (url : String)
  /-- The call `app.vault.create(path, text)`. -/
  | create (path text : String)
  /-- The call `app.vault.modify(file, text)`, with the path of the file. -/
  | modify (path text : String)
  /-- The call `app.vault.trash(file, true)`, with the path of the file. -/
  | trash (path : String)
  deriving DecidableEq, Repr

/-- The function `updateIndex` of the source: the vault call it makes. The argument
`fileExists` answers `app.vault.getAbstractFileByPath`. -/
def updateIndex (fileExists : String → Bool) (componentsDir : String)
    (updatedComponents : Entries) : List Event :=
  let indexFilePath := componentsDir ++ "/index.js"
  let code := indexCode updatedComponents
  if fileExists indexFilePath then [.modify indexFilePath code]
  else [.create indexFilePath code]

/-! ## The network -/

/-- An entry of the array `requires` of a remote descriptor. -/
structure Requirement where
  manifest : String
  version : String
  name : Option String
  deriving DecidableEq, Repr

/-- The JSON object served at a manifest URL. The fields `name`, `version` and `source` are
strings when present; an absent array `requires` is the empty list (the source reads it as
`manifest.requires || []`); `isProtected` and `update` are the truthiness of the fields
`protected` and `update`, which the spread `...manifest` copies into the record. -/
structure Descriptor where
  name : Option String
  version : Option String
  source : Option String
  requires : List Requirement
  isProtected : Bool
  update : Bool
  deriving DecidableEq, Repr

/-- The remote side: what `(await fetch(url)).json()` and `(await fetch(url)).text()` yield,
`none` when the request or the parse fails. -/
structure Net where
  json : String → Option Descriptor
  text : String → Option String

/-- The outcome of an asynchronous function: `none` when the fuel runs out, otherwise the
value returned or the exception thrown, with the effects performed up to that point. -/
abbrev Run (α : Type) : Type := Option (Except Err α × List Event)

/-! ## Resolving dependencies -/

/-- The call `requires.find((r) => r.name === name)` on an array: a slot holding `null` makes
the callback throw. -/
def findByName (name : Option String) : Entries → Except Err (Option Component)
  | .nil => .ok none
  | .null _ => .error .typeError
  | .cons r rest => if some r.name = name then .ok (some r) else findByName name rest

/-- The call `c.requires.find((r) => r.name === name)`: an absent `requires` throws. -/
def findRequirement (name : Option String) : Requires → Except Err (Option Component)
  | .absent => .error .typeError
  | .list items => findByName name items

/-- The call
`components.find((c) => c.name === name || c.requires.find((r) => r.name === name))`. -/
def findComponent (name : Option String) : Entries → Except Err (Option Component)
  | .nil => .ok none
  | .null _ => .error .typeError
  | .cons c rest =>
    if some c.name = name then .ok (some c)
    else
      match findRequirement name c.requires with
      | .error e => .error e
      | .ok (some _) => .ok (some c)
      | .ok none => findComponent name rest

/-- The function `checkDependency` of the source, after the descriptor is fetched: `name` is
the field `name` of the fetched descriptor. -/
def checkInstalled (components : Entries) (name : Option String) : Except Err Bool :=
  match findComponent name components with
  | .error e => .error e
  | .ok none => .error .typeError
  | .ok (some component) =>
    match findRequirement name component.requires with
    | .error e => .error e
    | .ok none => .ok false
    | .ok (some dependency) =>
      match satisfies component.version dependency.version with
      | .error e => .error e
      | .ok false => .ok false
      | .ok true => .ok true

/-- The function `checkDependency` of the source. -/
def checkDependency (net : Net) (components : Entries) (manifest : String) :
    Except Err Bool × List Event :=
  match net.json manifest with
  | none => (.error .network, [.fetch manifest])
  | some descriptor => (checkInstalled components descriptor.name, [.fetch manifest])

/-- The loop `for (const requirement of manifest.requires || [])` of `addComponent`; the
argument `add` is the recursive call. -/
def resolveRequirements (add : String → Run Component)
    (check : String → Except Err Bool × List Event) : List Requirement → Run (List Component)
  | [] => some (.ok [], [])
  | requirement :: rest =>
    match check requirement.manifest with
    | (.error e, t) => some (.error e, t)
    | (.ok true, t) =>
      match resolveRequirements add check rest with
      | none => none
      | some (r, t') => some (r, t ++ t')
    | (.ok false, t) =>
      match add requirement.manifest with
      | none => none
      | some (.error e, t₁) => some (.error e, t ++ t₁)
      | some (.ok c, t₁) =>
        match resolveRequirements add check rest with
        | none => none
        | some (.error e, t₂) => some (.error e, t ++ t₁ ++ t₂)
        | some (.ok cs, t₂) => some (.ok (c :: cs), t ++ t₁ ++ t₂)

/-- The function `addComponent` of the source. The vault call is taken to succeed. -/
def addComponent (net : Net) (componentsDir : String) (components : Entries) :
    Nat → String → Run Component
  | 0, _ => none
  | fuel + 1, manifestUrl =>
    match net.json manifestUrl with
    | none => some (.error .network, [.fetch manifestUrl])
    | some manifest =>
      match manifest.name, manifest.version, manifest.source with
      | some name, some version, some source =>
        if name = "" ∨ version = "" ∨ source = "" then
          some (.error (.error "Invalid manifest format"), [.fetch manifestUrl])
        else
          match resolveRequirements (addComponent net componentsDir components fuel)
              (checkDependency net components) manifest.requires with
          | none => none
          | some (.error e, t) => some (.error e, .fetch manifestUrl :: t)
          | some (.ok requirements, t) =>
            match net.text source with
            | none => some (.error .network, .fetch manifestUrl :: t ++ [.fetch source])
            | some componentCode =>
              let filePath := componentsDir ++ "/" ++ name ++ ".jsx"
              some (.ok (.mk name version manifestUrl source filePath manifest.isProtected
                  manifest.update (.list (.ofList requirements))),
                .fetch manifestUrl :: t ++ [.fetch source, .create filePath componentCode])
      | _, _, _ => some (.error (.error "Invalid manifest format"), [.fetch manifestUrl])

/-! ## The earlier implementation (`ecm/ECM/ECM.jsx`) -/

namespace Legacy

mutual
/-- The closure `addExports` of the earlier `updateIndex`, applied to a record. -/
def addExports (allExports : List String) : Component → List String
  | .mk name _ _ _ _ _ _ requires =>
    if name ∈ allExports then allExports
    else addExportsRequires (allExports ++ [name]) requires
/-- The statement `if (component.requires) { for ... }` of the earlier `addExports`. -/
def addExportsRequires (allExports : List String) : Requires → List String
  | .absent => allExports
  | .list items => addExportsInner allExports items
/-- The inner loop of the earlier `addExports`, with its `if (!requirement) continue`. -/
def addExportsInner (allExports : List String) : Entries → List String
  | .nil => allExports
  | .null rest => addExportsInner allExports rest
  | .cons c rest => addExportsInner (addExports allExports c) rest
end

/-- The outer loop of the earlier `updateIndex`: `addExports` has no guard against an empty
slot there, so reading `component.name` throws. -/
def addExportsOuter (allExports : List String) : Entries → Except Err (List String)
  | .nil => .ok allExports
  | .null _ => .error .typeError
  | .cons c rest => addExportsOuter (addExports allExports c) rest

/-- The array `allExports` when the outer loop of the earlier `updateIndex` ends. -/
def allExports (updatedComponents : Entries) : Except Err (List String) :=
  addExportsOuter [] updatedComponents

end Legacy

/-! ## Specification-side notions -/

mutual
/-- The names met by a depth-first, pre-order walk of a record and all it requires. -/
def Component.names : Component → List String
  | .mk name _ _ _ _ _ _ requires => name :: requires.names
/-- The names met by a depth-first, pre-order walk below a `requires` field. -/
def Requires.names : Requires → List String
  | .absent => []
  | .list items => items.names
/-- The names met by a depth-first, pre-order walk of a whole forest. -/
def Entries.names : Entries → List String
  | .nil => []
  | .null rest => rest.names
  | .cons c rest => c.names ++ rest.names
end

mutual
/-- The record itself and every record nested in it, at every depth. -/
def Component.records : Component → List Component
  | .mk name version manifest source filePath isProtected update requires =>
    .mk name version manifest source filePath isProtected update requires :: requires.records
/-- Every record below a `requires` field, at every depth. -/
def Requires.records : Requires → List Component
  | .absent => []
  | .list items => items.records
/-- Every record of a forest, at every depth. -/
def Entries.records : Entries → List Component
  | .nil => []
  | .null rest => rest.records
  | .cons c rest => c.records ++ rest.records
end

mutual
/-- The number of records in a record and all it requires. -/
def Component.size : Component → Nat
  | .mk _ _ _ _ _ _ _ requires => requires.size + 1
/-- The number of records below a `requires` field. -/
def Requires.size : Requires → Nat
  | .absent => 0
  | .list items => items.size
/-- The number of records of a forest. -/
def Entries.size : Entries → Nat
  | .nil => 0
  | .null rest => rest.size
  | .cons c rest => c.size + rest.size
end

/-- Accumulate names into a list without duplicates: a name already present is dropped, a
new one is put at the end. -/
def accumulate (acc : List String) : List String → List String
  | [] => acc
  | x :: xs => accumulate (if x ∈ acc then acc else acc ++ [x]) xs

/-- First-occurrence-wins deduplication of a sequence of names. -/
def dedupFirst (xs : List String) : List String :=
  accumulate [] xs

mutual
/-- No slot below the record, at any depth, holds `null`. -/
def Component.noNull : Component → Bool
  | .mk _ _ _ _ _ _ _ requires => requires.noNull
/-- No slot below the `requires` field, at any depth, holds `null`. -/
def Requires.noNull : Requires → Bool
  | .absent => true
  | .list items => items.noNull
/-- No slot of the forest, at any depth, holds `null`. -/
def Entries.noNull : Entries → Bool
  | .nil => true
  | .null _ => false
  | .cons c rest => c.noNull && rest.noNull
end

/-- Records with the same name require the same things, anywhere in the forest. -/
def Entries.Consistent (f : Entries) : Prop :=
  ∀ r₁ ∈ f.records, ∀ r₂ ∈ f.records, r₁.name = r₂.name → r₁.requires = r₂.requires

/-- The number of lines of a text: none for the empty text, otherwise one more than the
number of line feeds. -/
def lineCount (text : String) : Nat :=
  if text = "" then 0 else text.data.count '\n' + 1

/-! ## The manifest document and the host -/

/-- The forest held in memory (the React state `components`) and the forest persisted in the
front matter of `manifest.md` (its field `components`, `none` when the field is empty or
absent). -/
structure State where
  components : Entries
  document : Option Entries
  deriving DecidableEq, Repr

/-- The host application, as far as its calls can fail: whether a path holds a file, and the
exception, if any, with which a vault or front-matter call rejects. -/
structure Host where
  fileExists : String → Bool
  trash : String → Option Err
  processFrontMatter : Option Err
  write : String → Option Err

/-- An operation that may throw: the exception or normal completion, the state it leaves, and
the effects performed. -/
structure Outcome where
  result : Except Err Unit
  state : State
  events : List Event
  deriving DecidableEq, Repr

/-- An operation wrapped in `try`/`catch`: the state it leaves, the effects performed, and the
exception caught, if any (reported by `alert` or `setError`). -/
structure Settled where
  state : State
  events : List Event
  caught : Option Err
  deriving DecidableEq, Repr

namespace Entries

/-- The array without its empty slots: `filter(Boolean)`, `filter((c) => c != null)`. -/
def dropNull : Entries → Entries
  | nil => nil
  | null rest => dropNull rest
  | cons c rest => cons c (dropNull rest)

/-- The array `[...components, newComponent]`. -/
def push : Entries → Component → Entries
  | nil, x => cons x nil
  | null rest, x => null (push rest x)
  | cons c rest, x => cons c (push rest x)

/-- The names of the top-level records, in order. -/
def topNames : Entries → List String
  | nil => []
  | null rest => topNames rest
  | cons c rest => c.name :: topNames rest

end Entries

/-- The function `loadManifest` of the source, the manifest file being present: the state is
set to `(components || []).filter((c) => c != null)`. -/
def loadManifest (s : State) : State :=
  { s with
    components :=
      match s.document with
      | none => .nil
      | some components => components.dropNull }

/-- The callback of `processFrontMatter` in `updateManifest`:
`data["components"].filter(Boolean).map((c) => updatedComponents.find(...) ? ... : c)`. -/
def mergeComponents (updatedComponents : Entries) : Entries → Except Err Entries
  | .nil => .ok .nil
  | .null rest => mergeComponents updatedComponents rest
  | .cons c rest =>
    match findByName (some c.name) updatedComponents with
    | .error e => .error e
    | .ok found =>
      match mergeComponents updatedComponents rest with
      | .error e => .error e
      | .ok rest' => .ok (.cons (found.getD c) rest')

/-- The function `updateManifest` of the source, up to the call of `loadManifest`, which it
starts and does not await. -/
def updateManifest (host : Host) (componentsDir : String) (updatedComponents : Entries)
    (s : State) : Outcome :=
  match host.processFrontMatter with
  | some e => ⟨.error e, s, []⟩
  | none =>
    match s.document with
    | none => ⟨.error .typeError, s, []⟩
    | some components =>
      match mergeComponents updatedComponents components with
      | .error e => ⟨.error e, s, []⟩
      | .ok merged =>
        match host.write (componentsDir ++ "/index.js") with
        | some e => ⟨.error e, { s with document := some merged }, []⟩
        | none =>
          ⟨.ok (), { s with document := some merged },
            updateIndex host.fileExists componentsDir updatedComponents⟩

/-- The call `components.filter((c) => c.name !== name)`. -/
def removeNamed (name : String) : Entries → Except Err Entries
  | .nil => .ok .nil
  | .null _ => .error .typeError
  | .cons c rest =>
    match removeNamed name rest with
    | .error e => .error e
    | .ok rest' => .ok (if c.name ≠ name then .cons c rest' else rest')

/-- The function `deleteComponent` of the source. -/
def deleteComponent (host : Host) (componentsDir : String) (name : String) (s : State) :
    Settled :=
  let path := componentsDir ++ "/" ++ name ++ ".jsx"
  match host.trash path with
  | some e => ⟨s, [], some e⟩
  | none =>
    match removeNamed name s.components with
    | .error e => ⟨s, [.trash path], some e⟩
    | .ok updatedComponents =>
      let out := updateManifest host componentsDir updatedComponents
        { s with components := updatedComponents }
      ⟨out.state, .trash path :: out.events,
        match out.result with
        | .ok _ => none
        | .error e => some e⟩

/-- The delete control rendered for a top-level record: the lock for a protected record,
otherwise the link that calls `deleteComponent(component.name)`. The result is the name
passed to `deleteComponent`, `none` for the lock. -/
def deleteLink (component : Component) : Option String :=
  if component.isProtected then none else some component.name

/-- The handler of the Add button: `addComponent(manifestUrl)` then
`updateManifest([...components, newComponent])`, inside `try`/`catch`. -/
def addHandler (net : Net) (host : Host) (componentsDir : String) (fuel : Nat)
    (manifestUrl : String) (s : State) : Option Settled :=
  match addComponent net componentsDir s.components fuel manifestUrl with
  | none => none
  | some (.error e, events) => some ⟨s, events, some e⟩
  | some (.ok newComponent, events) =>
    let out := updateManifest host componentsDir (s.components.push newComponent) s
    some ⟨out.state, events ++ out.events,
      match out.result with
      | .ok _ => none
      | .error e => some e⟩

/-! ## Checking for updates and updating -/

/-- The function `checkUpdates` of the source. -/
def checkUpdates (net : Net) : Entries → Except Err (List Descriptor) × List Event
  | .nil => (.ok [], [])
  | .null _ => (.error .typeError, [])
  | .cons component rest =>
    match net.json component.manifest with
    | none => (.error .network, [.fetch component.manifest])
    | some manifest =>
      let continued (push : Bool) : Except Err (List Descriptor) × List Event :=
        match checkUpdates net rest with
        | (.error e, t) => (.error e, .fetch component.manifest :: t)
        | (.ok updates, t) =>
          (.ok (if push then manifest :: updates else updates), .fetch component.manifest :: t)
      match manifest.version with
      | none => continued false
      | some version =>
        if version = "" then continued false
        else
          match isUpgrade component.version version with
          | .error e => (.error e, [.fetch component.manifest])
          | .ok false => continued false
          | .ok true => continued true

mutual
/-- The object returned by `updateComponent`: the fields of the installed record, with the new
version, and the field `requires` as the loop over the remote requirements left it. -/
inductive Updated where
  | mk (name version manifest source filePath : String) (isProtected update : Bool)
      (requires : UpdatedRequires)
/-- The field `requires` of the object returned by `updateComponent`: the array of the
installed record when the loop did not assign it, otherwise what the recursive call returned,
`undefined` or a record (not an array). -/
inductive UpdatedRequires where
  | kept (requires : Requires)
  | undefined
  | record (component : Updated)
end

deriving instance DecidableEq, Repr for Updated, UpdatedRequires

/-- The effects `t` followed by a run. -/
def Run.after {α : Type} (t : List Event) : Run α → Run α
  | none => none
  | some (r, t') => some (r, t ++ t')

/-- The loop `for (const requirement of manifest.requires)` of `updateComponent`; the argument
`update` is the recursive call, `requires` the current value of `updatedComponent.requires`. -/
def updateRequirements (update : String → Run (Option Updated))
    (check : String → Except Err Bool × List Event) (components : Entries) :
    List Requirement → UpdatedRequires → Run UpdatedRequires
  | [], requires => some (.ok requires, [])
  | requirement :: rest, requires =>
    match check requirement.manifest with
    | (.error e, t) => some (.error e, t)
    | (.ok false, t) => (updateRequirements update check components rest requires).after t
    | (.ok true, t) =>
      match findByName requirement.name components, requirement.name with
      | .error e, _ => some (.error e, t)
      | .ok (some existingRequirement), some name =>
        match satisfies existingRequirement.version requirement.version with
        | .error e => some (.error e, t)
        | .ok true => (updateRequirements update check components rest requires).after t
        | .ok false =>
          match update name with
          | none => none
          | some (.error e, t₁) => some (.error e, t ++ t₁)
          | some (.ok none, t₁) =>
            (updateRequirements update check components rest .undefined).after (t ++ t₁)
          | some (.ok (some updatedRequirements), t₁) =>
            (updateRequirements update check components rest
              (.record updatedRequirements)).after (t ++ t₁)
      | .ok _, _ => (updateRequirements update check components rest requires).after t

/-- The function `updateComponent` of the source; `none` inside the run is the value
`undefined` of a bare `return`. A missing `manifest.source` is fetched as the URL
`undefined`; a missing file at `component.filePath` makes the function throw before the file
is written. -/
def updateComponent (net : Net) (fileExists : String → Bool) (components : Entries) :
    Nat → String → Run (Option Updated)
  | 0, _ => none
  | fuel + 1, name =>
    match findByName (some name) components with
    | .error e => some (.error e, [])
    | .ok none => some (.ok none, [])
    | .ok (some component) =>
      match net.json component.manifest with
      | none => some (.error .network, [.fetch component.manifest])
      | some manifest =>
        match manifest.version with
        | none => some (.ok none, [.fetch component.manifest])
        | some version =>
          if version = "" then some (.ok none, [.fetch component.manifest])
          else
            match isUpgrade component.version version with
            | .error e => some (.error e, [.fetch component.manifest])
            | .ok false => some (.ok none, [.fetch component.manifest])
            | .ok true =>
              match updateRequirements (updateComponent net fileExists components fuel)
                  (checkDependency net components) components manifest.requires
                  (.kept component.requires) with
              | none => none
              | some (.error e, t) => some (.error e, .fetch component.manifest :: t)
              | some (.ok requires, t) =>
                let source := manifest.source.getD "undefined"
                match net.text source with
                | none =>
                  some (.error .network, .fetch component.manifest :: t ++ [.fetch source])
                | some componentCode =>
                  if fileExists component.filePath then
                    some (.ok (some (.mk component.name version component.manifest
                        component.source component.filePath component.isProtected false
                        requires)),
                      .fetch component.manifest :: t ++
                        [.fetch source, .modify component.filePath componentCode])
                  else
                    some (.error .typeError,
                      .fetch component.manifest :: t ++ [.fetch source])

/-- A remote descriptor is an update of a record: it has a version and `isUpgrade` of the
installed and the remote version is true. -/
def hasUpgrade (component : Component) (descriptor : Descriptor) : Bool :=
  match descriptor.version with
  | none => false
  | some version => decide (isUpgrade component.version version = .ok true)

namespace Legacy

/-- The earlier `updateIndex`: the vault call it makes, unless `addExports` throws. -/
def updateIndex (fileExists : String → Bool) (componentsDir : String)
    (updatedComponents : Entries) : Except Err (List Event) :=
  let indexFilePath := componentsDir ++ "/index.js"
  match allExports updatedComponents with
  | .error e => .error e
  | .ok names =>
    let indexCode := join "\n" (names.map exportStatement)
    .ok [if fileExists indexFilePath then .modify indexFilePath indexCode
      else .create indexFilePath indexCode]

/-- The earlier `updateManifest`, up to the call of `loadManifest`, which it starts and does
not await: the field `components` is assigned. -/
def updateManifest (host : Host) (componentsDir : String) (updatedComponents : Entries)
    (s : State) : Outcome :=
  match host.processFrontMatter with
  | some e => ⟨.error e, s, []⟩
  | none =>
    match updateIndex host.fileExists componentsDir updatedComponents with
    | .error e => ⟨.error e, { s with document := some updatedComponents }, []⟩
    | .ok events =>
      match host.write (componentsDir ++ "/index.js") with
      | some e => ⟨.error e, { s with document := some updatedComponents }, []⟩
      | none => ⟨.ok (), { s with document := some updatedComponents }, events⟩

/-- The earlier `deleteComponent`. -/
def deleteComponent (host : Host) (componentsDir : String) (name : String) (s : State) :
    Settled :=
  let path := componentsDir ++ "/" ++ name ++ ".jsx"
  match host.trash path with
  | some e => ⟨s, [], some e⟩
  | none =>
    match removeNamed name s.components with
    | .error e => ⟨s, [.trash path], some e⟩
    | .ok updatedComponents =>
      let out := updateManifest host componentsDir updatedComponents
        { s with components := updatedComponents }
      ⟨out.state, .trash path :: out.events,
        match out.result with
        | .ok _ => none
        | .error e => some e⟩

end Legacy

/-! ## The earlier implementation: adding a component -/

namespace Legacy

/-- The call `c.requires.some((r) => r.name === name)` on an array. -/
def someNamed (name : Option String) : Entries → Except Err Bool
  | .nil => .ok false
  | .null _ => .error .typeError
  | .cons r rest => if some r.name = name then .ok true else someNamed name rest

/-- The earlier `checkDependency`:
`components.some((c) => c.name === name || (c.requires && c.requires.some(...)))`. -/
def checkDependency (name : Option String) : Entries → Except Err Bool
  | .nil => .ok false
  | .null _ => .error .typeError
  | .cons c rest =>
    if some c.name = name then .ok true
    else
      match c.requires with
      | .absent => checkDependency name rest
      | .list items =>
        match someNamed name items with
        | .error e => .error e
        | .ok true => .ok true
        | .ok false => checkDependency name rest

/-- The loop `for (const requirement of manifest.requires || [])` of the earlier
`addComponent`; the argument `add` is the recursive call, whose value `undefined` is pushed as
an empty slot. -/
def resolveRequirements (add : String → Option (Option Component × List Event))
    (components : Entries) : List Requirement → Option (Except Err Entries × List Event)
  | [] => some (.ok .nil, [])
  | requirement :: rest =>
    match checkDependency requirement.name components with
    | .error e => some (.error e, [])
    | .ok true => resolveRequirements add components rest
    | .ok false =>
      match add requirement.manifest with
      | none => none
      | some (result, t₁) =>
        match resolveRequirements add components rest with
        | none => none
        | some (.error e, t₂) => some (.error e, t₁ ++ t₂)
        | some (.ok requirements, t₂) =>
          some (.ok (match result with
            | none => .null requirements
            | some c => .cons c requirements), t₁ ++ t₂)

/-- The earlier `addComponent`: its body is inside `try`/`catch`, so an exception is reported
by `setError` and the value is `undefined` (`none` inside the run); the outer `none` is the
fuel running out. The vault call is taken to succeed. -/
def addComponent (net : Net) (componentsDir : String) (components : Entries) :
    Nat → String → Option (Option Component × List Event)
  | 0, _ => none
  | fuel + 1, manifestUrl =>
    match net.json manifestUrl with
    | none => some (none, [.fetch manifestUrl])
    | some manifest =>
      match manifest.name, manifest.version, manifest.source with
      | some name, some version, some source =>
        if name = "" ∨ version = "" ∨ source = "" then some (none, [.fetch manifestUrl])
        else
          match resolveRequirements (addComponent net componentsDir components fuel)
              components manifest.requires with
          | none => none
          | some (.error _, t) => some (none, .fetch manifestUrl :: t)
          | some (.ok requirements, t) =>
            match net.text source with
            | none => some (none, .fetch manifestUrl :: t ++ [.fetch source])
            | some componentCode =>
              let filePath := componentsDir ++ "/" ++ name ++ ".jsx"
              some (some (.mk name version manifestUrl source filePath manifest.isProtected
                  manifest.update (.list requirements)),
                .fetch manifestUrl :: t ++ [.fetch source, .create filePath componentCode])
      | _, _, _ => some (none, [.fetch manifestUrl])

end Legacy

/-! ## Specification-side notions for versions and descriptors -/

/-- A well-formed version: exactly three dot-separated fields, each a non-empty string of
decimal digits. -/
def isWellFormedVersion (version : String) : Bool :=
  match splitDot version.data with
  | [major, minor, patch] =>
    isDecimalDigits major && isDecimalDigits minor && isDecimalDigits patch
  | _ => false

/-- A descriptor with a non-empty `name`, `version` and `source`. -/
def Descriptor.isComplete (d : Descriptor) : Bool :=
  match d.name, d.version, d.source with
  | some name, some version, some source => name != "" && version != "" && source != ""
  | _, _, _ => false

/-! ## Examples -/

/-- A record with the given name, version and requirements, installed from `pkg.example`. -/
def exRecord (name version : String) (requires : List Component) : Component :=
  .mk name version ("https://pkg.example/" ++ name ++ ".json")
    ("https://pkg.example/" ++ name ++ ".jsx") ("components/" ++ name ++ ".jsx") false false
    (.list (.ofList requires))

/-- A descriptor with the given name, version and requirements, served by `pkg.example`. -/
def exDescriptor (name version : String) (requires : List (String × String)) : Descriptor :=
  { name := some name, version := some version,
    source := some ("https://pkg.example/" ++ name ++ ".jsx"),
    requires := requires.map fun r =>
      { manifest := "https://pkg.example/" ++ r.1 ++ ".json", version := r.2, name := some r.1 },
    isProtected := false, update := false }

/-- A registry: `A` requires `B`, `X` requires `B`, `B` and `C` require nothing, and the
descriptor of `Broken` has no `source`. -/
def exNet : Net where
  json url :=
    if url = "https://pkg.example/A.json" then some (exDescriptor "A" "1.0.0" [("B", "1.0.0")])
    else if url = "https://pkg.example/X.json" then
      some (exDescriptor "X" "1.0.0" [("B", "1.0.0")])
    else if url = "https://pkg.example/B.json" then some (exDescriptor "B" "1.0.0" [])
    else if url = "https://pkg.example/C.json" then some (exDescriptor "C" "1.0.0" [])
    else if url = "https://pkg.example/Broken.json" then
      some { exDescriptor "Broken" "1.0.0" [("B", "1.0.0")] with source := none }
    else none
  text url :=
    if url = "https://pkg.example/A.jsx" then some "export const A = 1;"
    else if url = "https://pkg.example/X.jsx" then some "export const X = 1;"
    else if url = "https://pkg.example/B.jsx" then some "export const B = 1;"
    else if url = "https://pkg.example/C.jsx" then some "export const C = 1;"
    else none

/-- The forest `[B]`: `B` is installed at top level and requires nothing. -/
def exForestTop : Entries :=
  .ofList [exRecord "B" "1.0.0" []]

/-- The forest `[A(requires=[B])]`: `B` is installed as a requirement of `A`. -/
def exForestNested : Entries :=
  .ofList [exRecord "A" "1.0.0" [exRecord "B" "1.0.0" []]]

/-- The forest `[A(requires=[B]), B(requires=[C])]`: the two records named `B` differ. -/
def exForestShadow : Entries :=
  .ofList [exRecord "A" "1.0.0" [exRecord "B" "1.0.0" []],
    exRecord "B" "1.0.0" [exRecord "C" "1.0.0" []]]

/-- The forest `[A(requires=[B,C]), D(requires=[B])]` of the specification. -/
def exForestSpec : Entries :=
  .ofList [exRecord "A" "1.0.0" [exRecord "B" "1.0.0" [], exRecord "C" "1.0.0" []],
    exRecord "D" "1.0.0" [exRecord "B" "1.0.0" []]]

/-- A host on which every call succeeds and every path holds a file. -/
def exHost : Host where
  fileExists _ := true
  trash _ := none
  processFrontMatter := none
  write _ := none

/-- A host on which writing the index file fails. -/
def exHostIndexFails : Host where
  fileExists _ := true
  trash _ := none
  processFrontMatter := none
  write path := if path = "components/index.js" then some (.error "EACCES") else none

/-- A host on which moving a file to the trash fails. -/
def exHostTrashFails : Host where
  fileExists _ := true
  trash _ := some (.error "EPERM")
  processFrontMatter := none
  write _ := none

/-- A later registry: `A` 1.1.0 requires `B` 2.0.0, `B` is at 2.0.0, `C` is still at 1.0.0,
the descriptor of `D` has no version, and the version of `M` is not a version. -/
def exNetNext : Net where
  json url :=
    if url = "https://pkg.example/A.json" then some (exDescriptor "A" "1.1.0" [("B", "2.0.0")])
    else if url = "https://pkg.example/B.json" then some (exDescriptor "B" "2.0.0" [])
    else if url = "https://pkg.example/C.json" then some (exDescriptor "C" "1.0.0" [])
    else if url = "https://pkg.example/D.json" then
      some { exDescriptor "D" "3.0.0" [] with version := none }
    else if url = "https://pkg.example/M.json" then some (exDescriptor "M" "banana" [])
    else none
  text url :=
    if url = "https://pkg.example/A.jsx" then some "export const A = 2;"
    else if url = "https://pkg.example/B.jsx" then some "export const B = 2;"
    else if url = "https://pkg.example/M.jsx" then some "export const M = 1;"
    else none

/-- The forest `[A(requires=[B]), B]`, all at 1.0.0. -/
def exForestBoth : Entries :=
  .ofList [exRecord "A" "1.0.0" [exRecord "B" "1.0.0" []], exRecord "B" "1.0.0" []]

/-- The forest `[A(requires=[B]), B, C, D]`, all at 1.0.0. -/
def exForestFour : Entries :=
  .ofList [exRecord "A" "1.0.0" [exRecord "B" "1.0.0" []], exRecord "B" "1.0.0" [],
    exRecord "C" "1.0.0" [], exRecord "D" "1.0.0" []]

/-- A protected record `P`. -/
def exProtected : Component :=
  .mk "P" "1.0.0" "https://pkg.example/P.json" "https://pkg.example/P.jsx" "components/P.jsx"
    true false (.list .nil)

/-- The state in which the forest is held in memory and persisted. -/
def exState (forest : Entries) : State :=
  { components := forest, document := some forest }

/-- A registry with a cycle: `A` requires `B` and `B` requires `A`. -/
def exNetCycle : Net where
  json url :=
    if url = "https://pkg.example/A.json" then some (exDescriptor "A" "1.0.0" [("B", "1.0.0")])
    else if url = "https://pkg.example/B.json" then
      some (exDescriptor "B" "1.0.0" [("A", "1.0.0")])
    else none
  text url :=
    if url = "https://pkg.example/A.jsx" then some "export const A = 1;"
    else if url = "https://pkg.example/B.jsx" then some "export const B = 1;"
    else none

/-- The forest `[A(requires=[null, B]), C]`: a nested slot is empty, no top-level one. -/
def exForestNestedNull : Entries :=
  .cons (.mk "A" "1.0.0" "https://pkg.example/A.json" "https://pkg.example/A.jsx"
      "components/A.jsx" false false (.list (.null (.ofList [exRecord "B" "1.0.0" []]))))
    (.ofList [exRecord "C" "1.0.0" []])

/-! ## Versions: the comparisons are made on strings -/

/-- C1 (the code departs from the claim): `isUpgrade` compares the fields as strings, by code
units, so the candidate `1.10.0` is not an upgrade of `1.9.0` while `1.9.0` is an upgrade of
`1.10.0`; the other example of the claim, `1.2.3` to `1.2.4`, holds. -/
theorem isUpgrade_compares_strings :
    isUpgrade "1.9.0" "1.10.0" = .ok false ∧ isUpgrade "1.10.0" "1.9.0" = .ok true ∧
      isUpgrade "1.2.3" "1.2.4" = .ok true ∧ isUpgrade "1.2.3" "1.2.3" = .ok false := by
  decide

/-- C2 (the code departs from the claim): `satisfies` compares the major and minor fields as
strings, so `01.2.3` does not satisfy `1.2.3` although both have major 1 and minor 2; the
examples of the claim hold. -/
theorem satisfies_compares_strings :
    satisfies "01.2.3" "1.2.3" = .ok false ∧ satisfies "1.02.3" "1.2.9" = .ok false ∧
      satisfies "1.2.3" "1.2.9" = .ok true ∧ satisfies "1.2.3" "1.3.0" = .ok false ∧
      satisfies "1.2.3" "2.2.3" = .ok false := by
  decide

/-- C3 (the code departs from the claim): `readSemver` accepts a version whose minor field is
empty, and fields that are numeric to `isNaN` without being strings of decimal digits; it
rejects `1.a.3` and a version with a missing field, and reads `1.2.3`. -/
theorem readSemver_accepts_empty_field :
    readSemver "1..3" = .ok { major := some "1", minor := some "", patch := some "3" } ∧
      readSemver "1.0x1F.-3" =
        .ok { major := some "1", minor := some "0x1F", patch := some "-3" } ∧
      isUpgrade "1..3" "1.0.3" = .ok true ∧ satisfies "1..3" "1..4" = .ok true ∧
      readSemver "1.a.3" = .error (.error "Invalid version format") ∧
      readSemver "1.2" = .error (.error "Invalid version format") ∧
      readSemver "1.2.3" = .ok { major := some "1", minor := some "2", patch := some "3" } := by
  decide

/-! ## Adding a component -/

/-- C4: when the fetched descriptor lacks `name`, `version` or `source`, `addComponent` throws
`Invalid manifest format` and its only effect is the fetch of the descriptor: no requirement
is checked or resolved, no source is fetched, no file is created. -/
theorem addComponent_invalid_manifest (net : Net) (componentsDir : String)
    (components : Entries) (fuel : Nat) (manifestUrl : String) (manifest : Descriptor)
    (hfetch : net.json manifestUrl = some manifest)
    (hlacks : manifest.name = none ∨ manifest.version = none ∨ manifest.source = none) :
    addComponent net componentsDir components (fuel + 1) manifestUrl =
      some (.error (.error "Invalid manifest format"), [.fetch manifestUrl]) := by
  obtain ⟨name, version, source, requires, isProtected, update⟩ := manifest
  simp only at hlacks
  rcases hlacks with h | h | h <;> subst h
  · simp [addComponent, hfetch]
  · cases name <;> simp [addComponent, hfetch]
  · cases name <;> cases version <;> simp [addComponent, hfetch]

/-- Witness for C4: the descriptor of `Broken` has no `source`. -/
theorem addComponent_invalid_manifest_witness :
    exNet.json "https://pkg.example/Broken.json" =
        some { exDescriptor "Broken" "1.0.0" [("B", "1.0.0")] with source := none } ∧
      addComponent exNet "components" exForestNested (0 + 1) "https://pkg.example/Broken.json" =
        some (.error (.error "Invalid manifest format"),
          [.fetch "https://pkg.example/Broken.json"]) :=
  ⟨by decide, addComponent_invalid_manifest exNet "components" exForestNested 0
    "https://pkg.example/Broken.json"
    { exDescriptor "Broken" "1.0.0" [("B", "1.0.0")] with source := none }
    (by decide) (by decide)⟩

/-- C5 (the code departs from the claim): with `B` 1.0.0 installed at top level, which
satisfies a required 1.0.0, `checkDependency` answers false; with `B` 1.0.0 installed only as
a requirement of `A` 2.0.0 it answers false as well, having compared the version of `A` with
that of `B`; with `B` 1.0.0 installed as a requirement of `A` 1.0.5 it answers true whatever
version is required, also 9.9.9; with nothing installed it throws. -/
theorem checkDependency_top_level_not_found :
    satisfies "1.0.0" "1.0.0" = .ok true ∧
      exForestTop = .ofList [exRecord "B" "1.0.0" []] ∧
      checkDependency exNet exForestTop "https://pkg.example/B.json" =
        (.ok false, [.fetch "https://pkg.example/B.json"]) ∧
      checkDependency exNet (.ofList [exRecord "A" "2.0.0" [exRecord "B" "1.0.0" []]])
          "https://pkg.example/B.json" = (.ok false, [.fetch "https://pkg.example/B.json"]) ∧
      satisfies "1.0.0" "9.9.9" = .ok false ∧
      checkDependency exNet (.ofList [exRecord "A" "1.0.5" [exRecord "B" "1.0.0" []]])
          "https://pkg.example/B.json" = (.ok true, [.fetch "https://pkg.example/B.json"]) ∧
      checkDependency exNet .nil "https://pkg.example/B.json" =
        (.error .typeError, [.fetch "https://pkg.example/B.json"]) := by
  decide

/-- The effect of `checkDependency` is the fetch of the descriptor, whatever it answers. -/
theorem checkDependency_events (net : Net) (components : Entries) (manifest : String) :
    (checkDependency net components manifest).2 = [.fetch manifest] := by
  unfold checkDependency
  cases net.json manifest <;> rfl

/-- The loop over `pre ++ post`, when the loop over `pre` succeeds, continues with the loop
over `post`. -/
theorem resolveRequirements_append (add : String → Run Component)
    (check : String → Except Err Bool × List Event) (post : List Requirement) :
    ∀ (pre : List Requirement) (recs₁ : List Component) (t₁ : List Event),
      resolveRequirements add check pre = some (.ok recs₁, t₁) →
      resolveRequirements add check (pre ++ post) =
        match resolveRequirements add check post with
        | none => none
        | some (.error e, t₂) => some (.error e, t₁ ++ t₂)
        | some (.ok recs₂, t₂) => some (.ok (recs₁ ++ recs₂), t₁ ++ t₂) := by
  intro pre
  induction pre with
  | nil =>
    intro recs₁ t₁ h
    simp only [resolveRequirements, Option.some.injEq, Prod.mk.injEq, Except.ok.injEq] at h
    obtain ⟨h₁, h₂⟩ := h
    subst h₁ h₂
    simp only [List.nil_append]
    rcases resolveRequirements add check post with _ | ⟨_ | _, _⟩ <;> rfl
  | cons r pre ih =>
    intro recs₁ t₁ h
    simp only [List.cons_append, resolveRequirements, List.append_eq] at h ⊢
    rcases hc : check r.manifest with ⟨_ | _ | _, t⟩
    · simp [hc] at h
    · rw [hc] at h
      simp only at h ⊢
      rcases ha : add r.manifest with _ | ⟨_ | c, ta⟩
      · simp [ha] at h
      · simp [ha] at h
      · rw [ha] at h
        simp only at h ⊢
        rcases hp : resolveRequirements add check pre with _ | ⟨_ | recs, t'⟩
        · simp [hp] at h
        · simp [hp] at h
        · rw [hp] at h
          simp only [Option.some.injEq, Prod.mk.injEq, Except.ok.injEq] at h
          obtain ⟨h₁, h₂⟩ := h
          subst h₁ h₂
          rw [ih recs t' hp]
          rcases resolveRequirements add check post with _ | ⟨_ | _, _⟩ <;> simp
    · rw [hc] at h
      simp only at h ⊢
      rcases hp : resolveRequirements add check pre with _ | ⟨_ | recs, t'⟩
      · simp [hp] at h
      · simp [hp] at h
      · rw [hp] at h
        simp only [Option.some.injEq, Prod.mk.injEq, Except.ok.injEq] at h
        obtain ⟨h₁, h₂⟩ := h
        subst h₁ h₂
        rw [ih recs t' hp]
        rcases resolveRequirements add check post with _ | ⟨_ | _, _⟩ <;> simp

/-- A requirement that `checkDependency` reports as satisfied adds the one fetch made by
`checkDependency` to the loop, and nothing else. -/
theorem resolveRequirements_satisfied (add : String → Run Component) (net : Net)
    (components : Entries) (r : Requirement) (post : List Requirement)
    (hsat : (checkDependency net components r.manifest).1 = .ok true) :
    resolveRequirements add (checkDependency net components) (r :: post) =
      match resolveRequirements add (checkDependency net components) post with
      | none => none
      | some (res, t) => some (res, .fetch r.manifest :: t) := by
  have hev := checkDependency_events net components r.manifest
  rcases hc : checkDependency net components r.manifest with ⟨res, t⟩
  rw [hc] at hsat hev
  simp only at hsat hev
  subst hsat hev
  simp only [resolveRequirements, hc]
  rcases resolveRequirements add (checkDependency net components) post with _ | ⟨_, _⟩ <;> rfl

/-- When the loop of `addComponent` succeeds, the records it collected are, in order, the
results of `add` on the requirements that `check` did not report as satisfied. -/
theorem resolveRequirements_ok (add : String → Run Component)
    (check : String → Except Err Bool × List Event) :
    ∀ (rs : List Requirement) (recs : List Component) (t : List Event),
      resolveRequirements add check rs = some (.ok recs, t) →
      List.Forall₂ (fun r c => ∃ t', add r.manifest = some (.ok c, t'))
        (rs.filter fun r => decide ((check r.manifest).1 ≠ .ok true)) recs := by
  intro rs
  induction rs with
  | nil =>
    intro recs t h
    simp only [resolveRequirements, Option.some.injEq, Prod.mk.injEq, Except.ok.injEq] at h
    rw [← h.1]
    exact List.Forall₂.nil
  | cons r rs ih =>
    intro recs t h
    simp only [resolveRequirements] at h
    rcases hc : check r.manifest with ⟨_ | _ | _, tc⟩
    · simp [hc] at h
    · rw [hc] at h
      simp only at h
      rcases ha : add r.manifest with _ | ⟨_ | c, ta⟩
      · simp [ha] at h
      · simp [ha] at h
      · rw [ha] at h
        simp only at h
        rcases hp : resolveRequirements add check rs with _ | ⟨_ | cs, t'⟩
        · simp [hp] at h
        · simp [hp] at h
        · rw [hp] at h
          simp only [Option.some.injEq, Prod.mk.injEq, Except.ok.injEq] at h
          rw [← h.1]
          have hf : (List.filter (fun r => decide ((check r.manifest).1 ≠ .ok true)) (r :: rs)) =
              r :: List.filter (fun r => decide ((check r.manifest).1 ≠ .ok true)) rs := by
            simp [List.filter, hc]
          rw [hf]
          exact List.Forall₂.cons ⟨ta, ha⟩ (ih cs t' hp)
    · rw [hc] at h
      simp only at h
      rcases hp : resolveRequirements add check rs with _ | ⟨_ | cs, t'⟩
      · simp [hp] at h
      · simp [hp] at h
      · rw [hp] at h
        simp only [Option.some.injEq, Prod.mk.injEq, Except.ok.injEq] at h
        rw [← h.1]
        have hf : (List.filter (fun r => decide ((check r.manifest).1 ≠ .ok true)) (r :: rs)) =
            List.filter (fun r => decide ((check r.manifest).1 ≠ .ok true)) rs := by
          simp [List.filter, hc]
        rw [hf]
        exact ih cs t' hp

/-- The loop result does not change when the recursive call is replaced by one that returns
at least as often. -/
theorem resolveRequirements_mono (add add' : String → Run Component)
    (check : String → Except Err Bool × List Event)
    (hadd : ∀ url x, add url = some x → add' url = some x) :
    ∀ (rs : List Requirement) (x : Except Err (List Component) × List Event),
      resolveRequirements add check rs = some x → resolveRequirements add' check rs = some x := by
  intro rs
  induction rs with
  | nil => intro x h; exact h
  | cons r rs ih =>
    intro x h
    simp only [resolveRequirements] at h ⊢
    rcases hc : check r.manifest with ⟨_ | _ | _, tc⟩
    · rw [hc] at h
      exact h
    · rw [hc] at h
      simp only at h ⊢
      rcases ha : add r.manifest with _ | ⟨_ | c, ta⟩
      · simp [ha] at h
      · rw [ha] at h
        rw [hadd _ _ ha]
        exact h
      · rw [ha] at h
        rw [hadd _ _ ha]
        simp only at h ⊢
        rcases hp : resolveRequirements add check rs with _ | p
        · simp [hp] at h
        · rw [hp] at h
          rw [ih p hp]
          exact h
    · rw [hc] at h
      simp only at h ⊢
      rcases hp : resolveRequirements add check rs with _ | p
      · simp [hp] at h
      · rw [hp] at h
        rw [ih p hp]
        exact h

/-- More fuel does not change an outcome of `addComponent`: the fuel only bounds the depth of
the recursion. -/
theorem addComponent_fuel_succ (net : Net) (componentsDir : String) (components : Entries) :
    ∀ (fuel : Nat) (manifestUrl : String) (x : Except Err Component × List Event),
      addComponent net componentsDir components fuel manifestUrl = some x →
      addComponent net componentsDir components (fuel + 1) manifestUrl = some x := by
  intro fuel
  induction fuel with
  | zero => intro url x h; simp [addComponent] at h
  | succ n ih =>
    intro url x h
    rw [addComponent] at h ⊢
    rcases hj : net.json url with _ | manifest
    · rw [hj] at h
      exact h
    · rw [hj] at h
      simp only at h ⊢
      rcases hn : manifest.name with _ | name
      · rw [hn] at h
        exact h
      rcases hv : manifest.version with _ | version
      · rw [hn, hv] at h
        exact h
      rcases hs : manifest.source with _ | source
      · rw [hn, hv, hs] at h
        exact h
      rw [hn, hv, hs] at h
      simp only at h ⊢
      split at h
      · rename_i hempty
        rw [if_pos hempty]
        exact h
      · rename_i hempty
        rw [if_neg hempty]
        rcases hl : resolveRequirements (addComponent net componentsDir components n)
            (checkDependency net components) manifest.requires with _ | p
        · simp [hl] at h
        · rw [hl] at h
          rw [resolveRequirements_mono _ _ _ ih _ p hl]
          exact h

/-- Any larger fuel gives the same outcome of `addComponent`. -/
theorem addComponent_fuel_le (net : Net) (componentsDir : String) (components : Entries)
    (fuel fuel' : Nat) (hle : fuel ≤ fuel') (manifestUrl : String)
    (x : Except Err Component × List Event)
    (h : addComponent net componentsDir components fuel manifestUrl = some x) :
    addComponent net componentsDir components fuel' manifestUrl = some x := by
  induction hle with
  | refl => exact h
  | step _ ih => exact addComponent_fuel_succ net componentsDir components _ _ _ ih

/-- C6 (counterexample): `B` 1.0.0 is installed as a requirement of `A` and satisfies the
1.0.0 that `X` requires; adding `X` creates no file for `B`, yet it fetches the descriptor
of `B`. -/
theorem addComponent_fetches_satisfied_requirement :
    exRecord "B" "1.0.0" [] ∈ exForestNested.records ∧
      satisfies (exRecord "B" "1.0.0" []).version "1.0.0" = .ok true ∧
      exNet.json "https://pkg.example/X.json" =
        some (exDescriptor "X" "1.0.0" [("B", "1.0.0")]) ∧
      addComponent exNet "components" exForestNested 1 "https://pkg.example/X.json" =
        some (.ok (exRecord "X" "1.0.0" []),
          [.fetch "https://pkg.example/X.json", .fetch "https://pkg.example/B.json",
            .fetch "https://pkg.example/X.jsx",
            .create "components/X.jsx" "export const X = 1;"]) ∧
      ¬ (∀ r tr, addComponent exNet "components" exForestNested 1
          "https://pkg.example/X.json" = some (r, tr) →
          Event.fetch "https://pkg.example/B.json" ∉ tr) := by
  refine ⟨by decide, by decide, by decide, by decide, ?_⟩
  intro h
  exact h (.ok (exRecord "X" "1.0.0" []))
    [.fetch "https://pkg.example/X.json", .fetch "https://pkg.example/B.json",
      .fetch "https://pkg.example/X.jsx", .create "components/X.jsx" "export const X = 1;"]
    (by decide) (by decide)

/-- C6 (amended): a requirement that `checkDependency` reports as satisfied is not passed to
`addComponent`: when the requirements before it resolve to `recs₁` with effects `t₁` and those
after it to `recs₂` with effects `t₂`, the record has `requires = recs₁ ++ recs₂` and the
effects are the fetch of the descriptor, `t₁`, the one fetch of the requirement's descriptor
made by `checkDependency`, `t₂`, the fetch of the source and the creation of the file. -/
theorem addComponent_skips_satisfied (net : Net) (componentsDir : String)
    (components : Entries) (fuel : Nat) (manifestUrl : String) (manifest : Descriptor)
    (name version source code : String) (pre post : List Requirement) (r : Requirement)
    (recs₁ recs₂ : List Component) (t₁ t₂ : List Event)
    (hfetch : net.json manifestUrl = some manifest)
    (hname : manifest.name = some name) (hversion : manifest.version = some version)
    (hsource : manifest.source = some source)
    (htruthy : name ≠ "" ∧ version ≠ "" ∧ source ≠ "")
    (hreq : manifest.requires = pre ++ r :: post)
    (hsat : (checkDependency net components r.manifest).1 = .ok true)
    (hpre : resolveRequirements (addComponent net componentsDir components fuel)
      (checkDependency net components) pre = some (.ok recs₁, t₁))
    (hpost : resolveRequirements (addComponent net componentsDir components fuel)
      (checkDependency net components) post = some (.ok recs₂, t₂))
    (hcode : net.text source = some code) :
    addComponent net componentsDir components (fuel + 1) manifestUrl =
      some (.ok (.mk name version manifestUrl source (componentsDir ++ "/" ++ name ++ ".jsx")
          manifest.isProtected manifest.update (.list (.ofList (recs₁ ++ recs₂)))),
        .fetch manifestUrl :: (t₁ ++ .fetch r.manifest :: t₂) ++
          [.fetch source, .create (componentsDir ++ "/" ++ name ++ ".jsx") code]) := by
  have hloop : resolveRequirements (addComponent net componentsDir components fuel)
      (checkDependency net components) manifest.requires =
      some (.ok (recs₁ ++ recs₂), t₁ ++ .fetch r.manifest :: t₂) := by
    rw [hreq, resolveRequirements_append _ _ _ pre recs₁ t₁ hpre,
      resolveRequirements_satisfied _ _ _ _ _ hsat, hpost]
  obtain ⟨h₁, h₂, h₃⟩ := htruthy
  simp [addComponent, hfetch, hname, hversion, hsource, h₁, h₂, h₃, hloop, hcode]

/-- Witness for C6 (amended): `X` requires `B`, which `checkDependency` reports as satisfied
in the forest `[A(requires=[B])]`. -/
theorem addComponent_skips_satisfied_witness :
    (checkDependency exNet exForestNested "https://pkg.example/B.json").1 = .ok true ∧
      addComponent exNet "components" exForestNested (0 + 1) "https://pkg.example/X.json" =
        some (.ok (.mk "X" "1.0.0" "https://pkg.example/X.json" "https://pkg.example/X.jsx"
            ("components" ++ "/" ++ "X" ++ ".jsx") false false (.list (.ofList ([] ++ [])))),
          .fetch "https://pkg.example/X.json" ::
            ([] ++ .fetch "https://pkg.example/B.json" :: []) ++
            [.fetch "https://pkg.example/X.jsx",
              .create ("components" ++ "/" ++ "X" ++ ".jsx") "export const X = 1;"]) :=
  ⟨by decide,
    addComponent_skips_satisfied exNet "components" exForestNested 0
      "https://pkg.example/X.json" (exDescriptor "X" "1.0.0" [("B", "1.0.0")])
      "X" "1.0.0" "https://pkg.example/X.jsx" "export const X = 1;" [] []
      { manifest := "https://pkg.example/B.json", version := "1.0.0", name := some "B" }
      [] [] [] [] (by decide) (by decide) (by decide) (by decide) (by decide) (by decide)
      (by decide) (by decide) (by decide) (by decide)⟩

/-- C7: a successful `addComponent(url)` returns the record determined by the descriptor:
its name and version, `manifest = url`, `filePath = componentsDir/name.jsx`, and as `requires`
the records returned, in the order of the descriptor's requirements, by the recursive call of
`addComponent` on the manifest of each requirement that `checkDependency` did not report as
satisfied; so `requires` is never longer than the descriptor's list. -/
theorem addComponent_record (net : Net) (componentsDir : String) (components : Entries)
    (fuel : Nat) (manifestUrl : String) (record : Component) (events : List Event)
    (hok : addComponent net componentsDir components fuel manifestUrl =
      some (.ok record, events)) :
    ∃ manifest n recs, fuel = n + 1 ∧ net.json manifestUrl = some manifest ∧
      manifest.name = some record.name ∧ manifest.version = some record.version ∧
      record.manifest = manifestUrl ∧
      record.filePath = componentsDir ++ "/" ++ record.name ++ ".jsx" ∧
      record.requires = .list (.ofList recs) ∧
      List.Forall₂
        (fun r c => ∃ t, addComponent net componentsDir components n r.manifest =
          some (.ok c, t))
        (manifest.requires.filter fun r =>
          decide ((checkDependency net components r.manifest).1 ≠ .ok true)) recs ∧
      recs.length ≤ manifest.requires.length := by
  cases fuel with
  | zero => simp [addComponent] at hok
  | succ n =>
    simp only [addComponent] at hok
    rcases hj : net.json manifestUrl with _ | manifest
    · simp [hj] at hok
    · rw [hj] at hok
      simp only at hok
      rcases hn : manifest.name with _ | name
      · simp [hn] at hok
      rcases hv : manifest.version with _ | version
      · simp [hn, hv] at hok
      rcases hs : manifest.source with _ | source
      · simp [hn, hv, hs] at hok
      rw [hn, hv, hs] at hok
      simp only at hok
      split at hok
      · simp at hok
      · rcases hl : resolveRequirements (addComponent net componentsDir components n)
            (checkDependency net components) manifest.requires with _ | ⟨_ | recs, t⟩
        · simp [hl] at hok
        · simp [hl] at hok
        · rw [hl] at hok
          simp only at hok
          rcases hc : net.text source with _ | code
          · simp [hc] at hok
          · rw [hc] at hok
            simp only [Option.some.injEq, Prod.mk.injEq, Except.ok.injEq] at hok
            obtain ⟨hrec, -⟩ := hok
            subst hrec
            have hall := resolveRequirements_ok _ _ _ _ _ hl
            refine ⟨manifest, n, recs, rfl, rfl, hn, hv, rfl, rfl, rfl, hall, ?_⟩
            rw [← hall.length_eq]
            exact List.length_filter_le _ _

/-- Witness for C7: adding `A`, which requires `B`, to the forest `[B]`. -/
theorem addComponent_record_witness :
    ∃ manifest n recs, 2 = n + 1 ∧ exNet.json "https://pkg.example/A.json" = some manifest ∧
      manifest.name = some (exRecord "A" "1.0.0" [exRecord "B" "1.0.0" []]).name ∧
      manifest.version = some (exRecord "A" "1.0.0" [exRecord "B" "1.0.0" []]).version ∧
      (exRecord "A" "1.0.0" [exRecord "B" "1.0.0" []]).manifest =
        "https://pkg.example/A.json" ∧
      (exRecord "A" "1.0.0" [exRecord "B" "1.0.0" []]).filePath =
        "components" ++ "/" ++ (exRecord "A" "1.0.0" [exRecord "B" "1.0.0" []]).name ++ ".jsx" ∧
      (exRecord "A" "1.0.0" [exRecord "B" "1.0.0" []]).requires = .list (.ofList recs) ∧
      List.Forall₂
        (fun r c => ∃ t, addComponent exNet "components" exForestTop n r.manifest =
          some (.ok c, t))
        (manifest.requires.filter fun r =>
          decide ((checkDependency exNet exForestTop r.manifest).1 ≠ .ok true)) recs ∧
      recs.length ≤ manifest.requires.length :=
  addComponent_record exNet "components" exForestTop 2 "https://pkg.example/A.json"
    (exRecord "A" "1.0.0" [exRecord "B" "1.0.0" []])
    [.fetch "https://pkg.example/A.json", .fetch "https://pkg.example/B.json",
      .fetch "https://pkg.example/B.json", .fetch "https://pkg.example/B.jsx",
      .create "components/B.jsx" "export const B = 1;", .fetch "https://pkg.example/A.jsx",
      .create "components/A.jsx" "export const A = 1;"]
    (by decide)

/-! ## The index file: lemmas -/

theorem accumulate_append (xs ys : List String) :
    ∀ acc : List String, accumulate acc (xs ++ ys) = accumulate (accumulate acc xs) ys := by
  induction xs with
  | nil => intro acc; rfl
  | cons x xs ih => intro acc; simp only [List.cons_append, accumulate]; exact ih _

theorem mem_accumulate (n : String) (xs : List String) :
    ∀ acc : List String, n ∈ accumulate acc xs ↔ n ∈ acc ∨ n ∈ xs := by
  induction xs with
  | nil => intro acc; simp [accumulate]
  | cons x xs ih =>
    intro acc
    simp only [accumulate, ih, List.mem_cons]
    by_cases hx : x ∈ acc
    · simp only [hx, if_true]
      constructor
      · rintro (h | h)
        · exact Or.inl h
        · exact Or.inr (Or.inr h)
      · rintro (h | h | h)
        · exact Or.inl h
        · exact Or.inl (h ▸ hx)
        · exact Or.inr h
    · simp only [hx, if_false, List.mem_append, List.mem_singleton]
      tauto

theorem accumulate_of_subset (xs : List String) :
    ∀ acc : List String, (∀ x ∈ xs, x ∈ acc) → accumulate acc xs = acc := by
  induction xs with
  | nil => intro acc _; rfl
  | cons x xs ih =>
    intro acc h
    have hx : x ∈ acc := h x (List.mem_cons_self _ _)
    simp only [accumulate, hx, if_true]
    exact ih acc fun y hy => h y (List.mem_cons_of_mem _ hy)

theorem nodup_accumulate (xs : List String) :
    ∀ acc : List String, acc.Nodup → (accumulate acc xs).Nodup := by
  induction xs with
  | nil => intro acc h; exact h
  | cons x xs ih =>
    intro acc h
    simp only [accumulate]
    apply ih
    by_cases hx : x ∈ acc
    · simpa [hx] using h
    · simp only [hx, if_false]
      exact List.Nodup.append h (List.nodup_singleton x) (by simpa using hx)

mutual
theorem component_names_eq_map_records :
    ∀ c : Component, c.names = c.records.map Component.name
  | .mk _ _ _ _ _ _ _ requires => by
    simp only [Component.names, Component.records, List.map_cons, Component.name]
    rw [requires_names_eq_map_records requires]
theorem requires_names_eq_map_records :
    ∀ r : Requires, r.names = r.records.map Component.name
  | .absent => rfl
  | .list items => by
    simp only [Requires.names, Requires.records]
    exact entries_names_eq_map_records items
theorem entries_names_eq_map_records :
    ∀ f : Entries, f.names = f.records.map Component.name
  | .nil => rfl
  | .null rest => by
    simp only [Entries.names, Entries.records]
    exact entries_names_eq_map_records rest
  | .cons c rest => by
    simp only [Entries.names, Entries.records, List.map_append]
    rw [component_names_eq_map_records c, entries_names_eq_map_records rest]
end

mutual
theorem component_requires_names_subset (r : Component) (n : String)
    (hn : n ∈ r.requires.names) : ∀ c : Component, r ∈ c.records → n ∈ c.names
  | .mk name version manifest source filePath isProtected update requires => by
    intro h
    simp only [Component.records, List.mem_cons] at h
    simp only [Component.names, List.mem_cons]
    rcases h with h | h
    · subst h
      exact Or.inr hn
    · exact Or.inr (requires_requires_names_subset r n hn requires h)
theorem requires_requires_names_subset (r : Component) (n : String)
    (hn : n ∈ r.requires.names) : ∀ q : Requires, r ∈ q.records → n ∈ q.names
  | .absent => by intro h; simp [Requires.records] at h
  | .list items => by
    intro h
    simp only [Requires.records] at h
    simp only [Requires.names]
    exact entries_requires_names_subset r n hn items h
theorem entries_requires_names_subset (r : Component) (n : String)
    (hn : n ∈ r.requires.names) : ∀ f : Entries, r ∈ f.records → n ∈ f.names
  | .nil => by intro h; simp [Entries.records] at h
  | .null rest => by
    intro h
    simp only [Entries.records] at h
    simp only [Entries.names]
    exact entries_requires_names_subset r n hn rest h
  | .cons c rest => by
    intro h
    simp only [Entries.records, List.mem_append] at h
    simp only [Entries.names, List.mem_append]
    rcases h with h | h
    · exact Or.inl (component_requires_names_subset r n hn c h)
    · exact Or.inr (entries_requires_names_subset r n hn rest h)
end

mutual
theorem component_size_le_of_mem_records (r : Component) :
    ∀ c : Component, r ∈ c.records → r.size ≤ c.size
  | .mk name version manifest source filePath isProtected update requires => by
    intro h
    simp only [Component.records, List.mem_cons] at h
    rcases h with h | h
    · subst h
      exact Nat.le_refl _
    · have := requires_size_le_of_mem_records r requires h
      simp only [Component.size]
      omega
theorem requires_size_le_of_mem_records (r : Component) :
    ∀ q : Requires, r ∈ q.records → r.size ≤ q.size
  | .absent => by intro h; simp [Requires.records] at h
  | .list items => by
    intro h
    simp only [Requires.records] at h
    simp only [Requires.size]
    exact entries_size_le_of_mem_records r items h
theorem entries_size_le_of_mem_records (r : Component) :
    ∀ f : Entries, r ∈ f.records → r.size ≤ f.size
  | .nil => by intro h; simp [Entries.records] at h
  | .null rest => by
    intro h
    simp only [Entries.records] at h
    simp only [Entries.size]
    exact entries_size_le_of_mem_records r rest h
  | .cons c rest => by
    intro h
    simp only [Entries.records, List.mem_append] at h
    simp only [Entries.size]
    rcases h with h | h
    · have := component_size_le_of_mem_records r c h
      omega
    · have := entries_size_le_of_mem_records r rest h
      omega
end

theorem component_size_eq (c : Component) : c.size = c.requires.size + 1 := by
  cases c; rfl

mutual
/-- On a record whose subtree is consistent, and with every record of the subtree whose name
is already exported having all it requires exported, `addExports` accumulates the pre-order
names of the subtree. -/
theorem addExports_eq_accumulate :
    ∀ (c : Component) (acc : List String),
      (∀ r₁ ∈ c.records, ∀ r₂ ∈ c.records, r₁.name = r₂.name → r₁.requires = r₂.requires) →
      (∀ r ∈ c.records, r.name ∈ acc → ∀ n ∈ r.requires.names, n ∈ acc) →
      addExports acc c = accumulate acc c.names
  | .mk name version manifest source filePath isProtected update requires => by
    intro acc hc hi
    have hself : Component.mk name version manifest source filePath isProtected update requires
        ∈ (Component.mk name version manifest source filePath isProtected update
          requires).records := by
      simp [Component.records]
    have hsub : ∀ r ∈ requires.records, r ∈ (Component.mk name version manifest source filePath
        isProtected update requires).records := by
      intro r hr
      simp only [Component.records, List.mem_cons]
      exact Or.inr hr
    simp only [addExports, Component.names, accumulate]
    by_cases hmem : name ∈ acc
    · simp only [hmem, if_true]
      exact (accumulate_of_subset _ _ (hi _ hself hmem)).symm
    · simp only [hmem, if_false]
      apply addExportsRequires_eq_accumulate requires (acc ++ [name])
      · exact fun r₁ h₁ r₂ h₂ => hc r₁ (hsub r₁ h₁) r₂ (hsub r₂ h₂)
      · intro r hr hrn n hn
        rw [List.mem_append, List.mem_singleton] at hrn
        rcases hrn with hrn | hrn
        · exact List.mem_append_left _ (hi r (hsub r hr) hrn n hn)
        · exfalso
          have heq := hc r (hsub r hr) _ hself hrn
          have hle := requires_size_le_of_mem_records r requires hr
          rw [component_size_eq, heq] at hle
          simp only [Component.requires] at hle
          omega
/-- The same for what a record requires. -/
theorem addExportsRequires_eq_accumulate :
    ∀ (q : Requires) (acc : List String),
      (∀ r₁ ∈ q.records, ∀ r₂ ∈ q.records, r₁.name = r₂.name → r₁.requires = r₂.requires) →
      (∀ r ∈ q.records, r.name ∈ acc → ∀ n ∈ r.requires.names, n ∈ acc) →
      addExportsRequires acc q = accumulate acc q.names
  | .absent => by intro acc _ _; rfl
  | .list items => by
    intro acc hc hi
    simp only [addExportsRequires, Requires.names]
    exact addExportsEach_eq_accumulate items acc hc hi
/-- The same for an array of records. -/
theorem addExportsEach_eq_accumulate :
    ∀ (f : Entries) (acc : List String),
      (∀ r₁ ∈ f.records, ∀ r₂ ∈ f.records, r₁.name = r₂.name → r₁.requires = r₂.requires) →
      (∀ r ∈ f.records, r.name ∈ acc → ∀ n ∈ r.requires.names, n ∈ acc) →
      addExportsEach acc f = accumulate acc f.names
  | .nil => by intro acc _ _; rfl
  | .null rest => by
    intro acc hc hi
    simp only [addExportsEach, Entries.names]
    exact addExportsEach_eq_accumulate rest acc hc hi
  | .cons c rest => by
    intro acc hc hi
    have hl : ∀ r ∈ c.records, r ∈ (Entries.cons c rest).records := by
      intro r hr
      simp only [Entries.records, List.mem_append]
      exact Or.inl hr
    have hr : ∀ r ∈ rest.records, r ∈ (Entries.cons c rest).records := by
      intro r hr
      simp only [Entries.records, List.mem_append]
      exact Or.inr hr
    simp only [addExportsEach, Entries.names, accumulate_append]
    rw [addExports_eq_accumulate c acc (fun r₁ h₁ r₂ h₂ => hc r₁ (hl r₁ h₁) r₂ (hl r₂ h₂))
      (fun r h => hi r (hl r h))]
    apply addExportsEach_eq_accumulate rest
    · exact fun r₁ h₁ r₂ h₂ => hc r₁ (hr r₁ h₁) r₂ (hr r₂ h₂)
    · intro r hrr hrn n hn
      rw [mem_accumulate] at hrn ⊢
      rcases hrn with hrn | hrn
      · exact Or.inl (hi r (hr r hrr) hrn n hn)
      · rw [component_names_eq_map_records, List.mem_map] at hrn
        obtain ⟨r', hr', hname⟩ := hrn
        have heq := hc r' (hl r' hr') r (hr r hrr) hname
        rw [← heq] at hn
        exact Or.inr (component_requires_names_subset r' n hn c hr')
end

mutual
theorem nodup_addExports :
    ∀ (c : Component) (acc : List String), acc.Nodup → (addExports acc c).Nodup
  | .mk name _ _ _ _ _ _ requires => by
    intro acc h
    simp only [addExports]
    by_cases hmem : name ∈ acc
    · simpa [hmem] using h
    · simp only [hmem, if_false]
      exact nodup_addExportsRequires requires _
        (List.Nodup.append h (List.nodup_singleton name) (by simpa using hmem))
theorem nodup_addExportsRequires :
    ∀ (q : Requires) (acc : List String), acc.Nodup → (addExportsRequires acc q).Nodup
  | .absent => by intro acc h; exact h
  | .list items => by
    intro acc h
    simp only [addExportsRequires]
    exact nodup_addExportsEach items acc h
theorem nodup_addExportsEach :
    ∀ (f : Entries) (acc : List String), acc.Nodup → (addExportsEach acc f).Nodup
  | .nil => by intro acc h; exact h
  | .null rest => by
    intro acc h
    simp only [addExportsEach]
    exact nodup_addExportsEach rest acc h
  | .cons c rest => by
    intro acc h
    simp only [addExportsEach]
    exact nodup_addExportsEach rest _ (nodup_addExports c acc h)
end

mutual
theorem legacy_addExports_eq :
    ∀ (c : Component) (acc : List String), Legacy.addExports acc c = addExports acc c
  | .mk name _ _ _ _ _ _ requires => by
    intro acc
    simp only [Legacy.addExports, addExports]
    rw [legacy_addExportsRequires_eq requires]
theorem legacy_addExportsRequires_eq :
    ∀ (q : Requires) (acc : List String),
      Legacy.addExportsRequires acc q = addExportsRequires acc q
  | .absent => by intro acc; rfl
  | .list items => by
    intro acc
    simp only [Legacy.addExportsRequires, addExportsRequires]
    exact legacy_addExportsInner_eq items acc
theorem legacy_addExportsInner_eq :
    ∀ (f : Entries) (acc : List String), Legacy.addExportsInner acc f = addExportsEach acc f
  | .nil => by intro acc; rfl
  | .null rest => by
    intro acc
    simp only [Legacy.addExportsInner, addExportsEach]
    exact legacy_addExportsInner_eq rest acc
  | .cons c rest => by
    intro acc
    simp only [Legacy.addExportsInner, addExportsEach]
    rw [legacy_addExports_eq c, legacy_addExportsInner_eq rest]
end

theorem legacy_nodup_addExportsOuter :
    ∀ (f : Entries) (acc names : List String), acc.Nodup →
      Legacy.addExportsOuter acc f = .ok names → names.Nodup
  | .nil => by
    intro acc names h hok
    simp only [Legacy.addExportsOuter, Except.ok.injEq] at hok
    exact hok ▸ h
  | .null rest => by
    intro acc names _ hok
    simp [Legacy.addExportsOuter] at hok
  | .cons c rest => by
    intro acc names h hok
    simp only [Legacy.addExportsOuter] at hok
    refine legacy_nodup_addExportsOuter rest _ names ?_ hok
    rw [legacy_addExports_eq]
    exact nodup_addExports c acc h

/-- C8 (counterexample): in the forest `[A(requires=[B]), B(requires=[C])]`, which has no
`null` slot, the second `B` is skipped together with what it requires: the exports are `A, B`
while the deduplicated pre-order walk is `A, B, C`, and `C` is not exported. -/
theorem allExports_skips_requirements_of_exported_name :
    exForestShadow.noNull = true ∧ allExports exForestShadow = ["A", "B"] ∧
      dedupFirst exForestShadow.names = ["A", "B", "C"] ∧
      allExports exForestShadow ≠ dedupFirst exForestShadow.names ∧
      "C" ∈ exForestShadow.names ∧ "C" ∉ allExports exForestShadow := by
  decide

/-- C8 (amended): for every forest in which records with the same name require the same
things, the names exported by `updateIndex` are the first-occurrence-wins deduplication of the
depth-first pre-order walk of the whole forest, and every name of the forest is exported. -/
theorem allExports_eq_dedupFirst_names (f : Entries) (hf : f.Consistent) :
    allExports f = dedupFirst f.names ∧ ∀ n ∈ f.names, n ∈ allExports f := by
  have heq : allExports f = dedupFirst f.names :=
    addExportsEach_eq_accumulate f [] hf (fun _ _ h => absurd h (List.not_mem_nil _))
  refine ⟨heq, fun n hn => ?_⟩
  rw [heq, dedupFirst, mem_accumulate]
  exact Or.inr hn

/-- Witness for C8 (amended): the forest `[A(requires=[B,C]), D(requires=[B])]`. -/
theorem allExports_eq_dedupFirst_names_witness :
    exForestSpec.Consistent ∧ allExports exForestSpec = dedupFirst exForestSpec.names ∧
      ∀ n ∈ exForestSpec.names, n ∈ allExports exForestSpec :=
  ⟨by unfold Entries.Consistent; decide,
    allExports_eq_dedupFirst_names exForestSpec (by unfold Entries.Consistent; decide)⟩

/-- C9: no name appears twice among the exports of `updateIndex`, in the main implementation
and, whenever it does not throw, in the earlier one; for the forest
`[A(requires=[B,C]), D(requires=[B])]` both export exactly `A, B, C, D`. -/
theorem allExports_nodup (f : Entries) :
    (allExports f).Nodup ∧ (∀ names, Legacy.allExports f = .ok names → names.Nodup) ∧
      allExports exForestSpec = ["A", "B", "C", "D"] ∧
      Legacy.allExports exForestSpec = .ok ["A", "B", "C", "D"] ∧
      ["A", "B", "C", "D"].count "B" = 1 :=
  ⟨nodup_addExportsEach f [] List.nodup_nil,
    fun names h => legacy_nodup_addExportsOuter f [] names List.nodup_nil h,
    by decide, by decide, by decide⟩

/-! ## The text of the index file -/

theorem intercalate_go_eq_join (sep : String) :
    ∀ (xs : List String) (acc : String),
      String.intercalate.go acc sep xs = if xs = [] then acc else acc ++ sep ++ join sep xs := by
  intro xs
  induction xs with
  | nil => intro acc; rfl
  | cons x xs ih =>
    intro acc
    simp only [String.intercalate.go, ih, reduceCtorEq, if_false]
    cases xs with
    | nil => simp [join]
    | cons y ys => simp [join, String.append_assoc]

theorem join_eq_intercalate (sep : String) (xs : List String) :
    join sep xs = String.intercalate sep xs := by
  cases xs with
  | nil => rfl
  | cons x xs =>
    simp only [String.intercalate, intercalate_go_eq_join]
    cases xs with
    | nil => simp [join]
    | cons y ys => simp [join, String.append_assoc]

theorem exportStatement_data (name : String) :
    (exportStatement name).data =
      "export * from \"./".data ++ name.data ++ ['"', ';'] := by
  simp [exportStatement, String.data_append]

theorem exportStatement_getLast (name : String) :
    (exportStatement name).data.getLast? = some ';' := by
  rw [exportStatement_data, List.getLast?_append]
  rfl

theorem join_getLast (sep : String) :
    ∀ xs : List String, xs ≠ [] → (∀ x ∈ xs, x.data.getLast? = some ';') →
      (join sep xs).data.getLast? = some ';' := by
  intro xs
  induction xs with
  | nil => intro h; exact absurd rfl h
  | cons x xs ih =>
    intro _ hall
    cases xs with
    | nil => simpa [join] using hall x (List.mem_cons_self _ _)
    | cons y ys =>
      have hrec := ih (List.cons_ne_nil _ _) fun z hz => hall z (List.mem_cons_of_mem _ hz)
      simp only [join, String.data_append]
      rw [List.getLast?_append, hrec]
      rfl

theorem join_count_newline :
    ∀ xs : List String, xs ≠ [] → (∀ x ∈ xs, '\n' ∉ x.data) →
      (join "\n" xs).data.count '\n' + 1 = xs.length := by
  intro xs
  induction xs with
  | nil => intro h; exact absurd rfl h
  | cons x xs ih =>
    intro _ hall
    have hx : x.data.count '\n' = 0 :=
      List.count_eq_zero.mpr (hall x (List.mem_cons_self _ _))
    cases xs with
    | nil => simp [join, hx]
    | cons y ys =>
      have hrec := ih (List.cons_ne_nil _ _) fun z hz => hall z (List.mem_cons_of_mem _ hz)
      simp only [join, String.data_append, List.count_append, hx, List.length_cons] at hrec ⊢
      have hsep : List.count '\n' ['\n'] = 1 := by decide
      omega

/-- C10: `updateIndex` writes to `componentsDir/index.js` (modifying the file when it exists,
creating it otherwise) the statements `export * from "./name";` of the exported names, in
order, joined by one line feed: one statement per name, no line feed at the end, the empty
text for the empty forest; and when no name contains a line feed the text has as many lines
as there are exported names. -/
theorem updateIndex_text (fileExists : String → Bool) (componentsDir : String)
    (updatedComponents : Entries) :
    updateIndex fileExists componentsDir updatedComponents =
        [if fileExists (componentsDir ++ "/index.js") = true then
            Event.modify (componentsDir ++ "/index.js") (indexCode updatedComponents)
          else Event.create (componentsDir ++ "/index.js") (indexCode updatedComponents)] ∧
      indexCode updatedComponents = String.intercalate "\n"
        ((allExports updatedComponents).map fun name => "export * from \"./" ++ name ++ "\";") ∧
      ((allExports updatedComponents).map exportStatement).length =
        (allExports updatedComponents).length ∧
      (indexCode updatedComponents).data.getLast? ≠ some '\n' ∧
      indexCode .nil = "" ∧
      ((∀ name ∈ allExports updatedComponents, '\n' ∉ name.data) →
        lineCount (indexCode updatedComponents) = (allExports updatedComponents).length) := by
  refine ⟨?_, ?_, by simp, ?_, by decide, ?_⟩
  · unfold updateIndex
    by_cases h : fileExists (componentsDir ++ "/index.js") = true <;> simp [h]
  · rw [indexCode, join_eq_intercalate]
    rfl
  · unfold indexCode
    cases hx : allExports updatedComponents with
    | nil => simp [join]
    | cons x xs =>
      rw [join_getLast "\n" _ (by simp)]
      · decide
      · intro s hs
        rw [List.mem_map] at hs
        obtain ⟨n, -, rfl⟩ := hs
        exact exportStatement_getLast n
  · intro hfree
    unfold lineCount indexCode
    cases hx : allExports updatedComponents with
    | nil => simp [join]
    | cons x xs =>
      rw [hx] at hfree
      have hne : join "\n" (List.map exportStatement (x :: xs)) ≠ "" := by
        intro h
        have h' := congrArg (fun s => s.data.getLast?) h
        simp only at h'
        rw [join_getLast "\n" _ (by simp)] at h'
        · exact absurd h' (by decide)
        · intro s hs
          rw [List.mem_map] at hs
          obtain ⟨n, -, rfl⟩ := hs
          exact exportStatement_getLast n
      rw [if_neg hne, join_count_newline _ (by simp)]
      · simp
      · intro s hs
        rw [List.mem_map] at hs
        obtain ⟨n, hn, rfl⟩ := hs
        rw [exportStatement_data]
        simp only [List.mem_append, not_or]
        exact ⟨⟨by decide, hfree n hn⟩, by decide⟩

/-- Witness for C10: the index of the forest `[A(requires=[B,C]), D(requires=[B])]` has four
lines. -/
theorem updateIndex_text_witness :
    (∀ name ∈ allExports exForestSpec, '\n' ∉ name.data) ∧
      lineCount (indexCode exForestSpec) = (allExports exForestSpec).length ∧
      indexCode exForestSpec =
        "export * from \"./A\";\nexport * from \"./B\";\nexport * from \"./C\";\nexport * from \"./D\";" :=
  ⟨by decide,
    (updateIndex_text (fun _ => false) "components" exForestSpec).2.2.2.2.2 (by decide),
    by decide⟩

/-! ## Saving the manifest -/

/-- C11 (the code departs from the claim): `updateManifest` maps over the persisted records
and replaces each by the record of the same name in its argument, so with `[A]` persisted,
saving `[A, B]` leaves `[A]` persisted and reloaded, saving `[]` leaves `[A]` as well, and
with an empty `components` field it throws; after `deleteComponent("B")` on the forest `[B]`
the reload brings `B` back. The earlier implementation assigns the field: it persists
`[A, B]`. -/
theorem updateManifest_keeps_persisted_records :
    (updateManifest exHost "components"
        (.ofList [exRecord "A" "1.0.0" [], exRecord "B" "1.0.0" []])
        (exState (.ofList [exRecord "A" "1.0.0" []]))).state.document =
        some (.ofList [exRecord "A" "1.0.0" []]) ∧
      (loadManifest (updateManifest exHost "components"
        (.ofList [exRecord "A" "1.0.0" [], exRecord "B" "1.0.0" []])
        (exState (.ofList [exRecord "A" "1.0.0" []]))).state).components =
        .ofList [exRecord "A" "1.0.0" []] ∧
      (updateManifest exHost "components" .nil
        (exState (.ofList [exRecord "A" "1.0.0" []]))).state.document =
        some (.ofList [exRecord "A" "1.0.0" []]) ∧
      (updateManifest exHost "components" (.ofList [exRecord "A" "1.0.0" []])
        { components := .nil, document := none }).result = .error .typeError ∧
      (loadManifest (deleteComponent exHost "components" "B"
        (exState exForestTop)).state).components = exForestTop ∧
      (Legacy.updateManifest exHost "components"
        (.ofList [exRecord "A" "1.0.0" [], exRecord "B" "1.0.0" []])
        (exState (.ofList [exRecord "A" "1.0.0" []]))).state.document =
        some (.ofList [exRecord "A" "1.0.0" [], exRecord "B" "1.0.0" []]) := by
  decide

/-- The earlier `updateManifest`, when it completes, has persisted its argument, and a reload
yields the argument without its empty slots. -/
theorem legacy_updateManifest_document (host : Host) (componentsDir : String)
    (updatedComponents : Entries) (s : State)
    (hok : (Legacy.updateManifest host componentsDir updatedComponents s).result = .ok ()) :
    (Legacy.updateManifest host componentsDir updatedComponents s).state.document =
        some updatedComponents ∧
      (loadManifest (Legacy.updateManifest host componentsDir updatedComponents
        s).state).components = updatedComponents.dropNull := by
  unfold Legacy.updateManifest at hok ⊢
  split at hok
  · simp at hok
  · split at hok
    · simp at hok
    · split at hok
      · simp at hok
      · rename_i h₁ _ _ h₂ _ h₃
        simp [h₁, h₂, h₃, loadManifest]

/-! ## Deleting a component -/

theorem removeNamed_ofList (name : String) :
    ∀ cs : List Component,
      removeNamed name (.ofList cs) = .ok (.ofList (cs.filter fun c => decide (c.name ≠ name)))
  | [] => rfl
  | c :: cs => by
    simp only [Entries.ofList, removeNamed, removeNamed_ofList name cs, List.filter]
    by_cases h : c.name = name <;> simp [h, Entries.ofList]

theorem removeNamed_ok (name : String) :
    ∀ (f updated : Entries), removeNamed name f = .ok updated →
      ∃ cs, f = .ofList cs ∧ updated = .ofList (cs.filter fun c => decide (c.name ≠ name))
  | .nil, updated => by
    intro h
    simp only [removeNamed, Except.ok.injEq] at h
    exact ⟨[], rfl, h ▸ rfl⟩
  | .null rest, updated => by
    intro h
    simp [removeNamed] at h
  | .cons c rest, updated => by
    intro h
    simp only [removeNamed] at h
    rcases hr : removeNamed name rest with _ | rest'
    · simp [hr] at h
    · rw [hr] at h
      simp only [Except.ok.injEq] at h
      obtain ⟨cs, hcs, hrest⟩ := removeNamed_ok name rest rest' hr
      refine ⟨c :: cs, by rw [hcs]; rfl, ?_⟩
      rw [← h, hrest]
      by_cases hn : c.name = name <;> simp [hn, List.filter, Entries.ofList]

theorem updateManifest_components (host : Host) (componentsDir : String)
    (updatedComponents : Entries) (s : State) :
    (updateManifest host componentsDir updatedComponents s).state.components =
      s.components := by
  unfold updateManifest
  repeat' split
  all_goals rfl

theorem updateManifest_events (host : Host) (componentsDir : String)
    (updatedComponents : Entries) (s : State) (path : String) :
    Event.trash path ∉ (updateManifest host componentsDir updatedComponents s).events := by
  unfold updateManifest updateIndex
  repeat' split
  all_goals first
    | (simp; done)
    | (simp only []; split <;> simp)

theorem legacy_updateManifest_components (host : Host) (componentsDir : String)
    (updatedComponents : Entries) (s : State) :
    (Legacy.updateManifest host componentsDir updatedComponents s).state.components =
      s.components := by
  unfold Legacy.updateManifest
  repeat' split
  all_goals rfl

theorem legacy_updateManifest_events (host : Host) (componentsDir : String)
    (updatedComponents : Entries) (s : State) (path : String) :
    Event.trash path ∉
      (Legacy.updateManifest host componentsDir updatedComponents s).events := by
  unfold Legacy.updateManifest
  split
  · simp
  · split
    · simp
    · rename_i events hev
      split
      · simp
      · unfold Legacy.updateIndex at hev
        split at hev
        · simp at hev
        · simp only [Except.ok.injEq] at hev
          rw [← hev]
          split <;> simp

/-- C12 (counterexample): `deleteComponent` does not look at `protected`: called with the
name of the protected record `P`, it trashes `components/P.jsx` and removes `P` from the
forest in memory (the persisted manifest is unchanged, as after any delete). -/
theorem deleteComponent_deletes_protected :
    exProtected.isProtected = true ∧
      deleteComponent exHost "components" exProtected.name
          (exState (.ofList [exProtected])) =
        ⟨{ components := .nil, document := some (.ofList [exProtected]) },
          [.trash "components/P.jsx", .modify "components/index.js" ""], none⟩ := by
  decide

/-- C12 (amended): the list renders the lock, and no delete link, for a top-level record with
`protected = true`; and when the top-level names are pairwise distinct, every delete link that
is rendered calls `deleteComponent` with another name: that call leaves the protected record
in the forest in memory and trashes no file but the one of the name it was given. -/
theorem deleteLink_protected (cs : List Component) (r : Component) (hr : r ∈ cs)
    (hp : r.isProtected = true) (hnodup : (cs.map Component.name).Nodup) :
    deleteLink r = none ∧
      ∀ c ∈ cs, ∀ n, deleteLink c = some n →
        n ≠ r.name ∧
        ∀ (host : Host) (componentsDir : String) (s : State), s.components = .ofList cs →
          (∃ cs', (deleteComponent host componentsDir n s).state.components = .ofList cs' ∧
            r ∈ cs') ∧
          ∀ path, Event.trash path ∈ (deleteComponent host componentsDir n s).events →
            path = componentsDir ++ "/" ++ n ++ ".jsx" := by
  refine ⟨by simp [deleteLink, hp], ?_⟩
  intro c hc n hlink
  have hcn : c.isProtected = false ∧ c.name = n := by
    unfold deleteLink at hlink
    by_cases hcp : c.isProtected = true
    · simp [hcp] at hlink
    · simpa [hcp] using hlink
  have hne : n ≠ r.name := by
    intro h
    have heq : c = r := List.inj_on_of_nodup_map hnodup hc hr (hcn.2.trans h)
    rw [heq, hp] at hcn
    exact absurd hcn.1 (by simp)
  refine ⟨hne, ?_⟩
  intro host componentsDir s hs
  unfold deleteComponent
  simp only
  rcases host.trash (componentsDir ++ "/" ++ n ++ ".jsx") with _ | e
  · rw [hs, removeNamed_ofList]
    simp only [updateManifest_components]
    refine ⟨⟨_, rfl, ?_⟩, ?_⟩
    · rw [List.mem_filter]
      exact ⟨hr, by simpa using fun h => hne h.symm⟩
    · intro path hpath
      rw [List.mem_cons] at hpath
      rcases hpath with hpath | hpath
      · simpa using hpath
      · exact absurd hpath (updateManifest_events _ _ _ _ _)
  · exact ⟨⟨cs, hs, hr⟩, by simp⟩

/-- Witness for C12 (amended): in the forest `[P, B]` the link of `B` deletes `B` only. -/
theorem deleteLink_protected_witness :
    deleteLink exProtected = none ∧
      ∀ c ∈ [exProtected, exRecord "B" "1.0.0" []], ∀ n, deleteLink c = some n →
        n ≠ exProtected.name ∧
        ∀ (host : Host) (componentsDir : String) (s : State),
          s.components = .ofList [exProtected, exRecord "B" "1.0.0" []] →
          (∃ cs', (deleteComponent host componentsDir n s).state.components = .ofList cs' ∧
            exProtected ∈ cs') ∧
          ∀ path, Event.trash path ∈ (deleteComponent host componentsDir n s).events →
            path = componentsDir ++ "/" ++ n ++ ".jsx" :=
  deleteLink_protected [exProtected, exRecord "B" "1.0.0" []] exProtected (by decide)
    (by decide) (by decide)

/-- C13 (counterexample): when writing the index fails during `deleteComponent("B")`, the
exception is caught, but `components/B.jsx` is already trashed and the forest in memory is
already `[]` instead of `[B]`. -/
theorem deleteComponent_failure_changes_forest :
    (exState exForestTop).components = .ofList [exRecord "B" "1.0.0" []] ∧
      deleteComponent exHostIndexFails "components" "B" (exState exForestTop) =
        ⟨{ components := .nil, document := some exForestTop },
          [.trash "components/B.jsx"], some (.error "EACCES")⟩ ∧
      (deleteComponent exHostIndexFails "components" "B" (exState exForestTop)).state.components
        ≠ (exState exForestTop).components := by
  decide

/-- C13 (amended): every failure of a step of `deleteComponent` is caught inside it. When
trashing the file fails, nothing else is done: the forest in memory and the persisted manifest
are those before the call. When a later step fails, the file is already trashed and the
forest in memory is already the one without the records of that name. -/
theorem deleteComponent_failure (host : Host) (componentsDir : String) (name : String)
    (s : State) :
    (∀ e, host.trash (componentsDir ++ "/" ++ name ++ ".jsx") = some e →
        deleteComponent host componentsDir name s = ⟨s, [], some e⟩) ∧
      (∀ updated e, host.trash (componentsDir ++ "/" ++ name ++ ".jsx") = none →
        removeNamed name s.components = .ok updated →
        (deleteComponent host componentsDir name s).caught = some e →
        (deleteComponent host componentsDir name s).state.components = updated ∧
          (deleteComponent host componentsDir name s).events.head? =
            some (.trash (componentsDir ++ "/" ++ name ++ ".jsx"))) := by
  constructor
  · intro e he
    simp [deleteComponent, he]
  · intro updated e ht hr _
    simp [deleteComponent, ht, hr, updateManifest_components]

/-- Witness for C13 (amended): a failing trash leaves the state as it was; a failing index
write leaves the file trashed and the forest in memory without `B`. -/
theorem deleteComponent_failure_witness :
    deleteComponent exHostTrashFails "components" "B" (exState exForestTop) =
        ⟨exState exForestTop, [], some (.error "EPERM")⟩ ∧
      (deleteComponent exHostIndexFails "components" "B"
          (exState exForestTop)).state.components = .nil ∧
      (deleteComponent exHostIndexFails "components" "B" (exState exForestTop)).events.head? =
        some (.trash ("components" ++ "/" ++ "B" ++ ".jsx")) :=
  ⟨(deleteComponent_failure exHostTrashFails "components" "B" (exState exForestTop)).1
      (.error "EPERM") (by decide),
    (deleteComponent_failure exHostIndexFails "components" "B" (exState exForestTop)).2
      .nil (.error "EACCES") (by decide) (by decide) (by decide)⟩

theorem dropNull_ofList : ∀ cs : List Component, (Entries.ofList cs).dropNull = .ofList cs
  | [] => rfl
  | c :: cs => by simp only [Entries.ofList, Entries.dropNull, dropNull_ofList cs]

/-- C14: a successful `deleteComponent(name)`, in either implementation, does not cascade:
the forest in memory becomes the previous list of top-level records without those named
`name`, the others unchanged and in order with all they require, and the one file trashed is
`componentsDir/name.jsx`. In the earlier implementation the reload started by
`updateManifest` yields the same forest (in the main one the reload yields what
`updateManifest` persisted). -/
theorem deleteComponent_no_cascade (host : Host) (componentsDir : String) (name : String)
    (s : State) :
    ((deleteComponent host componentsDir name s).caught = none →
        ∃ cs rest, s.components = .ofList cs ∧
          (deleteComponent host componentsDir name s).state.components =
            .ofList (cs.filter fun c => decide (c.name ≠ name)) ∧
          (deleteComponent host componentsDir name s).events =
            .trash (componentsDir ++ "/" ++ name ++ ".jsx") :: rest ∧
          ∀ path, Event.trash path ∉ rest) ∧
      ((Legacy.deleteComponent host componentsDir name s).caught = none →
        ∃ cs rest, s.components = .ofList cs ∧
          (Legacy.deleteComponent host componentsDir name s).state.components =
            .ofList (cs.filter fun c => decide (c.name ≠ name)) ∧
          (Legacy.deleteComponent host componentsDir name s).events =
            .trash (componentsDir ++ "/" ++ name ++ ".jsx") :: rest ∧
          (∀ path, Event.trash path ∉ rest) ∧
          (loadManifest (Legacy.deleteComponent host componentsDir name s).state).components =
            .ofList (cs.filter fun c => decide (c.name ≠ name))) := by
  constructor
  · intro hok
    unfold deleteComponent at hok ⊢
    simp only at hok ⊢
    rcases ht : host.trash (componentsDir ++ "/" ++ name ++ ".jsx") with _ | e
    · rw [ht] at hok
      simp only at hok ⊢
      rcases hr : removeNamed name s.components with _ | updated
      · simp [hr] at hok
      · obtain ⟨cs, hcs, hupd⟩ := removeNamed_ok name _ _ hr
        simp only [updateManifest_components]
        exact ⟨cs, _, hcs, hupd, rfl, fun path => updateManifest_events _ _ _ _ path⟩
    · simp [ht] at hok
  · intro hok
    unfold Legacy.deleteComponent at hok ⊢
    simp only at hok ⊢
    rcases ht : host.trash (componentsDir ++ "/" ++ name ++ ".jsx") with _ | e
    · rw [ht] at hok
      simp only at hok ⊢
      rcases hr : removeNamed name s.components with _ | updated
      · simp [hr] at hok
      · obtain ⟨cs, hcs, hupd⟩ := removeNamed_ok name _ _ hr
        rw [hr] at hok
        simp only at hok
        have hres : (Legacy.updateManifest host componentsDir updated
            { components := updated, document := s.document }).result = .ok () := by
          rcases hres : (Legacy.updateManifest host componentsDir updated
            { components := updated, document := s.document }).result with _ | _
          · simp [hres] at hok
          · rfl
        have hload := (legacy_updateManifest_document _ _ _ _ hres).2
        simp only [legacy_updateManifest_components]
        refine ⟨cs, _, hcs, hupd, rfl,
          fun path => legacy_updateManifest_events _ _ _ _ path, ?_⟩
        rw [hload, hupd, dropNull_ofList]
    · simp [ht] at hok

/-- Witness for C14: deleting the top-level `B` from `[A(requires=[B]), B]` leaves
`A(requires=[B])`, in both implementations. -/
theorem deleteComponent_no_cascade_witness :
    (∃ cs rest, (exState exForestBoth).components = .ofList cs ∧
        (deleteComponent exHost "components" "B" (exState exForestBoth)).state.components =
          .ofList (cs.filter fun c => decide (c.name ≠ "B")) ∧
        (deleteComponent exHost "components" "B" (exState exForestBoth)).events =
          .trash ("components" ++ "/" ++ "B" ++ ".jsx") :: rest ∧
        ∀ path, Event.trash path ∉ rest) ∧
      (∃ cs rest, (exState exForestBoth).components = .ofList cs ∧
        (Legacy.deleteComponent exHost "components" "B"
            (exState exForestBoth)).state.components =
          .ofList (cs.filter fun c => decide (c.name ≠ "B")) ∧
        (Legacy.deleteComponent exHost "components" "B" (exState exForestBoth)).events =
          .trash ("components" ++ "/" ++ "B" ++ ".jsx") :: rest ∧
        (∀ path, Event.trash path ∉ rest) ∧
        (loadManifest (Legacy.deleteComponent exHost "components" "B"
            (exState exForestBoth)).state).components =
          .ofList (cs.filter fun c => decide (c.name ≠ "B"))) ∧
      (deleteComponent exHost "components" "B" (exState exForestBoth)).state.components =
        exForestNested :=
  ⟨(deleteComponent_no_cascade exHost "components" "B" (exState exForestBoth)).1 (by decide),
    (deleteComponent_no_cascade exHost "components" "B" (exState exForestBoth)).2 (by decide),
    by decide⟩

/-! ## Updating a component -/

/-- C15 (the code departs from the claim): when the remote version is not an upgrade, or the
remote descriptor has no version, `updateComponent` ends with a bare `return`: its value is
`undefined`, not the record. -/
theorem updateComponent_returns_undefined :
    findByName (some "B") exForestTop = .ok (some (exRecord "B" "1.0.0" [])) ∧
      exNet.json "https://pkg.example/B.json" = some (exDescriptor "B" "1.0.0" []) ∧
      isUpgrade "1.0.0" "1.0.0" = .ok false ∧
      updateComponent exNet (fun _ => true) exForestTop 1 "B" =
        some (.ok none, [.fetch "https://pkg.example/B.json"]) ∧
      exNetNext.json "https://pkg.example/D.json" =
        some { exDescriptor "D" "3.0.0" [] with version := none } ∧
      updateComponent exNetNext (fun _ => true) (.ofList [exRecord "D" "1.0.0" []]) 1 "D" =
        some (.ok none, [.fetch "https://pkg.example/D.json"]) := by
  decide

/-- The empty string is not a version: `isUpgrade` throws on it. -/
theorem isUpgrade_empty (current : String) (b : Bool) : isUpgrade current "" ≠ .ok b := by
  unfold isUpgrade
  have h : readSemver "" = .error (.error "Invalid version format") := by decide
  rw [h]
  cases readSemver current <;> simp

/-- C16: when the record `r` that `components.find` locates for `name` has a remote descriptor
that is an upgrade and lists no requirements, `updateComponent(name)` fetches the remote
source, overwrites the file at `r.filePath` with it, and returns the fields of `r` with the
remote version and no `update` flag. -/
theorem updateComponent_upgrade (net : Net) (fileExists : String → Bool)
    (components : Entries) (fuel : Nat) (name : String) (r : Component)
    (remote : Descriptor) (version source code : String)
    (hfind : findByName (some name) components = .ok (some r))
    (hfetch : net.json r.manifest = some remote)
    (hversion : remote.version = some version)
    (hupgrade : isUpgrade r.version version = .ok true)
    (hrequires : remote.requires = [])
    (hsource : remote.source = some source)
    (hcode : net.text source = some code)
    (hfile : fileExists r.filePath = true) :
    updateComponent net fileExists components (fuel + 1) name =
      some (.ok (some (.mk r.name version r.manifest r.source r.filePath r.isProtected false
          (.kept r.requires))),
        [.fetch r.manifest, .fetch source, .modify r.filePath code]) := by
  have hne : version ≠ "" := by
    intro h
    rw [h] at hupgrade
    exact isUpgrade_empty _ _ hupgrade
  simp [updateComponent, hfind, hfetch, hversion, hne, hupgrade, hrequires,
    updateRequirements, hsource, hcode, hfile]

/-- Witness for C16: `B` 1.0.0 is installed and the registry now serves `B` 2.0.0. -/
theorem updateComponent_upgrade_witness :
    findByName (some "B") exForestTop = .ok (some (exRecord "B" "1.0.0" [])) ∧
      isUpgrade (exRecord "B" "1.0.0" []).version "2.0.0" = .ok true ∧
      updateComponent exNetNext (fun _ => true) exForestTop (0 + 1) "B" =
        some (.ok (some (.mk (exRecord "B" "1.0.0" []).name "2.0.0"
            (exRecord "B" "1.0.0" []).manifest (exRecord "B" "1.0.0" []).source
            (exRecord "B" "1.0.0" []).filePath (exRecord "B" "1.0.0" []).isProtected false
            (.kept (exRecord "B" "1.0.0" []).requires))),
          [.fetch (exRecord "B" "1.0.0" []).manifest, .fetch "https://pkg.example/B.jsx",
            .modify (exRecord "B" "1.0.0" []).filePath "export const B = 2;"]) :=
  ⟨by decide, by decide,
    updateComponent_upgrade exNetNext (fun _ => true) exForestTop 0 "B"
      (exRecord "B" "1.0.0" []) (exDescriptor "B" "2.0.0" []) "2.0.0"
      "https://pkg.example/B.jsx" "export const B = 2;" (by decide) (by decide) (by decide)
      (by decide) (by decide) (by decide) (by decide) rfl⟩

/-- C17 (the code departs from the claim): `A` 1.0.0 requires `[B]`, and `B` 1.0.0 is also
installed at top level; the registry serves `A` 1.1.0 requiring `B` 2.0.0. Updating `A`
updates `B` and assigns the record returned for `B` to `requires` itself: the field is that
record, not the array `[B]` with its entry replaced. -/
theorem updateComponent_requires_is_record :
    (exRecord "A" "1.0.0" [exRecord "B" "1.0.0" []]).requires =
        .list (.ofList [exRecord "B" "1.0.0" []]) ∧
      satisfies "1.0.0" "2.0.0" = .ok false ∧
      updateComponent exNetNext (fun _ => true) exForestBoth 1 "B" =
        some (.ok (some (.mk "B" "2.0.0" "https://pkg.example/B.json"
            "https://pkg.example/B.jsx" "components/B.jsx" false false
            (.kept (.list .nil)))),
          [.fetch "https://pkg.example/B.json", .fetch "https://pkg.example/B.jsx",
            .modify "components/B.jsx" "export const B = 2;"]) ∧
      updateComponent exNetNext (fun _ => true) exForestBoth 2 "A" =
        some (.ok (some (.mk "A" "1.1.0" "https://pkg.example/A.json"
            "https://pkg.example/A.jsx" "components/A.jsx" false false
            (.record (.mk "B" "2.0.0" "https://pkg.example/B.json"
              "https://pkg.example/B.jsx" "components/B.jsx" false false
              (.kept (.list .nil)))))),
          [.fetch "https://pkg.example/A.json", .fetch "https://pkg.example/B.json",
            .fetch "https://pkg.example/B.json", .fetch "https://pkg.example/B.jsx",
            .modify "components/B.jsx" "export const B = 2;",
            .fetch "https://pkg.example/A.jsx",
            .modify "components/A.jsx" "export const A = 2;"]) := by
  decide

/-! ## Checking for updates -/

/-- The descriptor that `checkUpdates` pushes for a record, if any. -/
theorem checkUpdates_ok (net : Net) :
    ∀ (f : Entries) (updates : List Descriptor) (events : List Event),
      checkUpdates net f = (.ok updates, events) →
      ∃ cs, f = .ofList cs ∧ events = cs.map (fun c => Event.fetch c.manifest) ∧
        updates = cs.filterMap fun c =>
          match net.json c.manifest with
          | some remote => if hasUpgrade c remote then some remote else none
          | none => none
  | .nil, updates, events => by
    intro h
    simp only [checkUpdates, Prod.mk.injEq, Except.ok.injEq] at h
    exact ⟨[], rfl, h.2 ▸ rfl, h.1 ▸ rfl⟩
  | .null rest, updates, events => by
    intro h
    simp [checkUpdates] at h
  | .cons c rest, updates, events => by
    intro h
    simp only [checkUpdates] at h
    rcases hj : net.json c.manifest with _ | remote
    · simp [hj] at h
    · rw [hj] at h
      simp only at h
      have key : ∀ push : Bool, push = hasUpgrade c remote →
          (match checkUpdates net rest with
            | (.error e, t) => ((.error e, Event.fetch c.manifest :: t) :
                Except Err (List Descriptor) × List Event)
            | (.ok ups, t) =>
              (.ok (if push = true then remote :: ups else ups),
                Event.fetch c.manifest :: t)) = (.ok updates, events) →
          ∃ cs, Entries.cons c rest = .ofList cs ∧
            events = cs.map (fun c => Event.fetch c.manifest) ∧
            updates = cs.filterMap fun c =>
              match net.json c.manifest with
              | some remote => if hasUpgrade c remote then some remote else none
              | none => none := by
        intro push hpush hk
        rcases hrest : checkUpdates net rest with ⟨_ | ups, t⟩
        · simp [hrest] at hk
        · rw [hrest] at hk
          simp only [Prod.mk.injEq, Except.ok.injEq] at hk
          obtain ⟨cs, hcs, hev, hups⟩ := checkUpdates_ok net rest ups t hrest
          refine ⟨c :: cs, by rw [hcs]; rfl, ?_, ?_⟩
          · rw [← hk.2, hev]
            rfl
          · rw [← hk.1, hups, hpush, List.filterMap_cons, hj]
            by_cases hu : hasUpgrade c remote = true <;> simp [hu]
      rcases hv : remote.version with _ | version
      · rw [hv] at h
        exact key false (by simp [hasUpgrade, hv]) h
      · rw [hv] at h
        simp only at h
        by_cases hempty : version = ""
        · rw [if_pos hempty] at h
          refine key false ?_ h
          have := isUpgrade_empty c.version true
          simp [hasUpgrade, hv, hempty, this]
        · rw [if_neg hempty] at h
          rcases hu : isUpgrade c.version version with _ | _ | _
          · simp [hu] at h
          · rw [hu] at h
            exact key false (by simp [hasUpgrade, hv, hu]) h
          · rw [hu] at h
            exact key true (by simp [hasUpgrade, hv, hu]) h

/-- The outcome of `checkUpdates` on a list of records, when the manifest of every record is
fetched and `isUpgrade` returns on every pair of versions it is given. -/
theorem checkUpdates_ofList (net : Net) :
    ∀ cs : List Component,
      (∀ c ∈ cs, ∃ remote, net.json c.manifest = some remote ∧
        ∀ version, remote.version = some version → version ≠ "" →
          ∃ b, isUpgrade c.version version = .ok b) →
      checkUpdates net (.ofList cs) =
        (.ok (cs.filterMap fun c =>
            match net.json c.manifest with
            | some remote => if hasUpgrade c remote then some remote else none
            | none => none),
          cs.map fun c => Event.fetch c.manifest)
  | [], _ => rfl
  | c :: cs, hread => by
    obtain ⟨remote, hj, hversion⟩ := hread c (List.mem_cons_self _ _)
    have ih := checkUpdates_ofList net cs fun x hx => hread x (List.mem_cons_of_mem _ hx)
    simp only [Entries.ofList, checkUpdates, hj, ih, List.filterMap_cons, List.map_cons]
    rcases hv : remote.version with _ | version
    · simp [hasUpgrade, hv]
    · by_cases hempty : version = ""
      · have := isUpgrade_empty c.version true
        simp [hasUpgrade, hv, hempty, this]
      · obtain ⟨b, hb⟩ := hversion version hv hempty
        cases b <;> simp [hasUpgrade, hv, hempty, hb]

/-- C18: on every forest whose top-level manifests are all fetched, with versions on which
`isUpgrade` returns, `checkUpdates` returns, in forest order, the remote descriptors of
exactly those top-level records whose descriptor has a version with
`isUpgrade(c.version, version)` true; a descriptor without version is skipped; and the
fetches made are those of the manifests of the top-level records, one each and in order, so
no manifest of a nested record is fetched. -/
theorem checkUpdates_returns (net : Net) (cs : List Component)
    (hread : ∀ c ∈ cs, ∃ remote, net.json c.manifest = some remote ∧
      ∀ version, remote.version = some version → version ≠ "" →
        ∃ b, isUpgrade c.version version = .ok b) :
    checkUpdates net (.ofList cs) =
        (.ok (cs.filterMap fun c =>
            match net.json c.manifest with
            | some remote => if hasUpgrade c remote then some remote else none
            | none => none),
          cs.map fun c => Event.fetch c.manifest) ∧
      (∀ remote, remote.version = none → ∀ c, hasUpgrade c remote = false) ∧
      ∀ c remote version, remote.version = some version →
        (hasUpgrade c remote = true ↔ isUpgrade c.version version = .ok true) := by
  refine ⟨checkUpdates_ofList net cs hread, ?_, ?_⟩
  · intro remote hv c
    simp [hasUpgrade, hv]
  · intro c remote version hv
    simp [hasUpgrade, hv]

/-- Witness for C18: of `[A(requires=[B]), B, C, D]` at 1.0.0, the registry has upgrades for
`A` and `B`, the same version of `C`, and no version for `D`: `checkUpdates` makes four
fetches, none for the nested `B`, and returns the descriptors of `A` and `B`. -/
theorem checkUpdates_returns_witness :
    checkUpdates exNetNext
        (.ofList [exRecord "A" "1.0.0" [exRecord "B" "1.0.0" []], exRecord "B" "1.0.0" [],
          exRecord "C" "1.0.0" [], exRecord "D" "1.0.0" []]) =
        (.ok ([exRecord "A" "1.0.0" [exRecord "B" "1.0.0" []], exRecord "B" "1.0.0" [],
            exRecord "C" "1.0.0" [], exRecord "D" "1.0.0" []].filterMap fun c =>
            match exNetNext.json c.manifest with
            | some remote => if hasUpgrade c remote then some remote else none
            | none => none),
          [exRecord "A" "1.0.0" [exRecord "B" "1.0.0" []], exRecord "B" "1.0.0" [],
            exRecord "C" "1.0.0" [], exRecord "D" "1.0.0" []].map fun c =>
            Event.fetch c.manifest) ∧
      checkUpdates exNetNext exForestFour =
        (.ok [exDescriptor "A" "1.1.0" [("B", "2.0.0")], exDescriptor "B" "2.0.0" []],
          [.fetch "https://pkg.example/A.json", .fetch "https://pkg.example/B.json",
            .fetch "https://pkg.example/C.json", .fetch "https://pkg.example/D.json"]) :=
  ⟨(checkUpdates_returns exNetNext
      [exRecord "A" "1.0.0" [exRecord "B" "1.0.0" []], exRecord "B" "1.0.0" [],
        exRecord "C" "1.0.0" [], exRecord "D" "1.0.0" []]
      (by
        intro c hc
        simp only [List.mem_cons, List.mem_singleton, List.not_mem_nil, or_false] at hc
        rcases hc with rfl | rfl | rfl | rfl
        · refine ⟨exDescriptor "A" "1.1.0" [("B", "2.0.0")], by decide, ?_⟩
          intro version hv _
          cases hv
          exact ⟨true, by decide⟩
        · refine ⟨exDescriptor "B" "2.0.0" [], by decide, ?_⟩
          intro version hv _
          cases hv
          exact ⟨true, by decide⟩
        · refine ⟨exDescriptor "C" "1.0.0" [], by decide, ?_⟩
          intro version hv _
          cases hv
          exact ⟨false, by decide⟩
        · refine ⟨{ exDescriptor "D" "3.0.0" [] with version := none }, by decide, ?_⟩
          intro version hv _
          cases hv)).1,
    by decide⟩

/-! ## What an add stores -/

/-- A successful `addComponent` has fetched a descriptor with non-empty `name`, `version` and
`source`, and returns a record with these. -/
theorem addComponent_ok_fields (net : Net) (componentsDir : String) (components : Entries)
    (fuel : Nat) (manifestUrl : String) (record : Component) (events : List Event)
    (hok : addComponent net componentsDir components fuel manifestUrl =
      some (.ok record, events)) :
    ∃ manifest, net.json manifestUrl = some manifest ∧
      manifest.name = some record.name ∧ manifest.version = some record.version ∧
      manifest.source = some record.source ∧
      record.name ≠ "" ∧ record.version ≠ "" ∧ record.source ≠ "" := by
  cases fuel with
  | zero => simp [addComponent] at hok
  | succ n =>
    simp only [addComponent] at hok
    rcases hj : net.json manifestUrl with _ | manifest
    · simp [hj] at hok
    · rw [hj] at hok
      simp only at hok
      rcases hn : manifest.name with _ | name
      · simp [hn] at hok
      rcases hv : manifest.version with _ | version
      · simp [hn, hv] at hok
      rcases hs : manifest.source with _ | source
      · simp [hn, hv, hs] at hok
      rw [hn, hv, hs] at hok
      simp only at hok
      split at hok
      · simp at hok
      · rename_i hempty
        rcases hl : resolveRequirements (addComponent net componentsDir components n)
            (checkDependency net components) manifest.requires with _ | ⟨_ | recs, t⟩
        · simp [hl] at hok
        · simp [hl] at hok
        · rw [hl] at hok
          simp only at hok
          rcases hc : net.text source with _ | code
          · simp [hc] at hok
          · rw [hc] at hok
            simp only [Option.some.injEq, Prod.mk.injEq, Except.ok.injEq] at hok
            obtain ⟨hrec, -⟩ := hok
            subst hrec
            simp only [not_or] at hempty
            exact ⟨manifest, rfl, hn, hv, hs, hempty.1, hempty.2.1, hempty.2.2⟩

/-- C19 (counterexample): the version `banana` is not accepted by `readSemver`, yet
`addComponent` succeeds on the descriptor of `M` and returns a record with that version. -/
theorem addComponent_stores_malformed_version :
    readSemver "banana" = .error (.error "Invalid version format") ∧
      exNetNext.json "https://pkg.example/M.json" = some (exDescriptor "M" "banana" []) ∧
      addComponent exNetNext "components" .nil 1 "https://pkg.example/M.json" =
        some (.ok (exRecord "M" "banana" []),
          [.fetch "https://pkg.example/M.json", .fetch "https://pkg.example/M.jsx",
            .create "components/M.jsx" "export const M = 1;"]) ∧
      (exRecord "M" "banana" []).version = "banana" := by
  decide

/-- C19 (amended): the only check `addComponent` makes on the version is that it is present
and not empty: for a descriptor without version, or with the empty version, it fails with
`Invalid manifest format` and returns no record; the version of every record it returns is
the non-empty version string of the descriptor, as served. -/
theorem addComponent_version_present (net : Net) (componentsDir : String)
    (components : Entries) (fuel : Nat) (manifestUrl : String) :
    (∀ manifest, net.json manifestUrl = some manifest →
        manifest.version = none ∨ manifest.version = some "" →
        addComponent net componentsDir components (fuel + 1) manifestUrl =
          some (.error (.error "Invalid manifest format"), [.fetch manifestUrl])) ∧
      (∀ record events,
        addComponent net componentsDir components fuel manifestUrl =
          some (.ok record, events) →
        record.version ≠ "" ∧
          ∃ manifest, net.json manifestUrl = some manifest ∧
            manifest.version = some record.version) := by
  constructor
  · intro manifest hfetch hversion
    obtain ⟨name, version, source, requires, isProtected, update⟩ := manifest
    simp only at hversion
    rcases hversion with h | h <;> subst h
    · cases name <;> simp [addComponent, hfetch]
    · cases name <;> cases source <;> simp [addComponent, hfetch]
  · intro record events hok
    obtain ⟨manifest, hj, -, hv, -, -, hne, -⟩ :=
      addComponent_ok_fields net componentsDir components fuel manifestUrl record events hok
    exact ⟨hne, manifest, hj, hv⟩

/-- Witness for C19 (amended): the descriptor of `D` has no version; the record returned for
`M` carries the version string of its descriptor. -/
theorem addComponent_version_present_witness :
    addComponent exNetNext "components" .nil (0 + 1) "https://pkg.example/D.json" =
        some (.error (.error "Invalid manifest format"), [.fetch "https://pkg.example/D.json"]) ∧
      ((exRecord "M" "banana" []).version ≠ "" ∧
        ∃ manifest, exNetNext.json "https://pkg.example/M.json" = some manifest ∧
          manifest.version = some (exRecord "M" "banana" []).version) :=
  ⟨(addComponent_version_present exNetNext "components" .nil 0
      "https://pkg.example/D.json").1
      { exDescriptor "D" "3.0.0" [] with version := none } (by decide) (Or.inl (by decide)),
    (addComponent_version_present exNetNext "components" .nil 1
      "https://pkg.example/M.json").2 (exRecord "M" "banana" [])
      [.fetch "https://pkg.example/M.json", .fetch "https://pkg.example/M.jsx",
        .create "components/M.jsx" "export const M = 1;"] (by decide)⟩

/-! ## Top-level names -/

theorem findByName_name (name : String) :
    ∀ (f : Entries) (c : Component), findByName (some name) f = .ok (some c) → c.name = name
  | .nil, c => by
    intro h
    simp [findByName] at h
  | .null rest, c => by
    intro h
    simp [findByName] at h
  | .cons x rest, c => by
    intro h
    simp only [findByName] at h
    by_cases hx : some x.name = some name
    · rw [if_pos hx] at h
      simp only [Except.ok.injEq, Option.some.injEq] at h
      rw [← h]
      exact Option.some.inj hx
    · rw [if_neg hx] at h
      exact findByName_name name rest c h

theorem mergeComponents_topNames (updatedComponents : Entries) :
    ∀ (f merged : Entries), mergeComponents updatedComponents f = .ok merged →
      merged.topNames = f.topNames
  | .nil, merged => by
    intro h
    simp only [mergeComponents, Except.ok.injEq] at h
    rw [← h]
  | .null rest, merged => by
    intro h
    simp only [mergeComponents] at h
    simp only [Entries.topNames]
    exact mergeComponents_topNames updatedComponents rest merged h
  | .cons c rest, merged => by
    intro h
    simp only [mergeComponents] at h
    rcases hf : findByName (some c.name) updatedComponents with _ | found
    · simp [hf] at h
    · rw [hf] at h
      simp only at h
      rcases hr : mergeComponents updatedComponents rest with _ | rest'
      · simp [hr] at h
      · rw [hr] at h
        simp only [Except.ok.injEq] at h
        rw [← h]
        simp only [Entries.topNames, mergeComponents_topNames updatedComponents rest rest' hr]
        congr 1
        cases found with
        | none => rfl
        | some u => exact findByName_name c.name updatedComponents u hf

theorem dropNull_topNames : ∀ f : Entries, f.dropNull.topNames = f.topNames
  | .nil => rfl
  | .null rest => by
    simp only [Entries.dropNull, Entries.topNames]
    exact dropNull_topNames rest
  | .cons c rest => by
    simp only [Entries.dropNull, Entries.topNames, dropNull_topNames rest]

theorem updateManifest_document (host : Host) (componentsDir : String)
    (updatedComponents : Entries) (s : State) (merged : Entries)
    (h : (updateManifest host componentsDir updatedComponents s).state.document =
      some merged) :
    ∃ persisted, s.document = some persisted ∧ merged.topNames = persisted.topNames := by
  unfold updateManifest at h
  split at h
  · exact ⟨merged, h, rfl⟩
  · split at h
    · exact ⟨merged, h, rfl⟩
    · rename_i persisted hdoc
      split at h
      · exact ⟨merged, h, rfl⟩
      · rename_i m hm
        have hnames := mergeComponents_topNames updatedComponents persisted m hm
        split at h
        · simp only [Option.some.injEq] at h
          exact ⟨persisted, hdoc, h ▸ hnames⟩
        · simp only [Option.some.injEq] at h
          exact ⟨persisted, hdoc, h ▸ hnames⟩

/-- C20: an add keeps the top-level names pairwise distinct. When they are distinct in the
forest in memory and in the persisted forest before the handler of the Add button runs
(`addComponent(url)`, then `updateManifest([...components, newComponent])`), they are
distinct afterwards in the forest in memory, in the persisted forest and in the forest that
the reload puts in memory, whatever the descriptors fetched and whether or not a step
fails. -/
theorem addHandler_top_names_distinct (net : Net) (host : Host) (componentsDir : String)
    (fuel : Nat) (manifestUrl : String) (s : State) (out : Settled)
    (hmemory : s.components.topNames.Nodup)
    (hpersisted : ∀ persisted, s.document = some persisted → persisted.topNames.Nodup)
    (hrun : addHandler net host componentsDir fuel manifestUrl s = some out) :
    out.state.components.topNames.Nodup ∧
      (∀ persisted, out.state.document = some persisted → persisted.topNames.Nodup) ∧
      (loadManifest out.state).components.topNames.Nodup := by
  have hstate : out.state = s ∨ ∃ updated,
      out.state = (updateManifest host componentsDir updated s).state := by
    unfold addHandler at hrun
    rcases ha : addComponent net componentsDir s.components fuel manifestUrl with
      _ | ⟨_ | newComponent, events⟩
    · simp [ha] at hrun
    · rw [ha] at hrun
      simp only [Option.some.injEq] at hrun
      exact Or.inl (by rw [← hrun])
    · rw [ha] at hrun
      simp only [Option.some.injEq] at hrun
      exact Or.inr ⟨s.components.push newComponent, by rw [← hrun]⟩
  have hdoc : ∀ persisted, out.state.document = some persisted → persisted.topNames.Nodup := by
    intro persisted hp
    rcases hstate with h | ⟨updated, h⟩
    · rw [h] at hp
      exact hpersisted persisted hp
    · rw [h] at hp
      obtain ⟨before, hb, hnames⟩ := updateManifest_document _ _ _ _ _ hp
      rw [hnames]
      exact hpersisted before hb
  refine ⟨?_, hdoc, ?_⟩
  · rcases hstate with h | ⟨updated, h⟩
    · rw [h]
      exact hmemory
    · rw [h, updateManifest_components]
      exact hmemory
  · unfold loadManifest
    simp only
    rcases hd : out.state.document with _ | persisted
    · exact List.nodup_nil
    · simp only
      rw [dropNull_topNames]
      exact hdoc persisted hd

/-- Witness for C20: adding `B` again to the forest `[B]`, and adding `C` to it. -/
theorem addHandler_top_names_distinct_witness :
    ((exState exForestTop).components.topNames.Nodup ∧
        (∀ persisted, (exState exForestTop).document = some persisted →
          persisted.topNames.Nodup) ∧
        (loadManifest (exState exForestTop)).components.topNames.Nodup) ∧
      addHandler exNet exHost "components" 1 "https://pkg.example/C.json"
          (exState exForestTop) =
        some ⟨exState exForestTop,
          [.fetch "https://pkg.example/C.json", .fetch "https://pkg.example/C.jsx",
            .create "components/C.jsx" "export const C = 1;",
            .modify "components/index.js" "export * from \"./B\";\nexport * from \"./C\";"],
          none⟩ :=
  ⟨addHandler_top_names_distinct exNet exHost "components" 1 "https://pkg.example/B.json"
      (exState exForestTop)
      ⟨exState exForestTop,
        [.fetch "https://pkg.example/B.json", .fetch "https://pkg.example/B.jsx",
          .create "components/B.jsx" "export const B = 1;",
          .modify "components/index.js" "export * from \"./B\";"],
        none⟩
      (by decide) (by intro persisted h; cases h; decide) (by decide),
    by decide⟩

/-! ## Cycles in the descriptor graph -/

theorem isComplete_fields (d : Descriptor) (h : d.isComplete = true) :
    ∃ name version source, d.name = some name ∧ d.version = some version ∧
      d.source = some source ∧ ¬ (name = "" ∨ version = "" ∨ source = "") := by
  unfold Descriptor.isComplete at h
  rcases hn : d.name with _ | name
  · simp [hn] at h
  rcases hv : d.version with _ | version
  · simp [hn, hv] at h
  rcases hs : d.source with _ | source
  · simp [hn, hv, hs] at h
  rw [hn, hv, hs] at h
  simp only [Bool.and_eq_true, bne_iff_ne, ne_eq] at h
  exact ⟨name, version, source, rfl, rfl, rfl, by tauto⟩

/-- With an empty forest, a descriptor whose first requirement is not yet out of fuel cannot
complete: the earlier `addComponent` runs out of fuel when the recursive call does. -/
theorem legacy_addComponent_none_of_requirement (net : Net) (componentsDir : String)
    (fuel : Nat) (manifestUrl : String) (d : Descriptor) (r : Requirement)
    (rest : List Requirement) (hfetch : net.json manifestUrl = some d)
    (hcomplete : d.isComplete = true) (hrequires : d.requires = r :: rest)
    (hrec : Legacy.addComponent net componentsDir .nil fuel r.manifest = none) :
    Legacy.addComponent net componentsDir .nil (fuel + 1) manifestUrl = none := by
  obtain ⟨name, version, source, hn, hv, hs, hne⟩ := isComplete_fields d hcomplete
  simp [Legacy.addComponent, hfetch, hn, hv, hs, hne, hrequires, Legacy.resolveRequirements,
    Legacy.checkDependency, hrec]

/-- C21: the earlier `addComponent` detects no cycle. When the descriptor of `A` requires `B`
first and that of `B` requires `A` first, both complete and served, and the forest is empty,
`addComponent` on the manifest of `A` does not complete within any bound on the depth of the
nested `addComponent` calls. -/
theorem legacy_addComponent_cycle (net : Net) (componentsDir : String)
    (urlA urlB : String) (a b : Descriptor) (toB toA : Requirement)
    (restA restB : List Requirement)
    (hA : net.json urlA = some a) (hB : net.json urlB = some b)
    (hcompleteA : a.isComplete = true) (hcompleteB : b.isComplete = true)
    (hrequiresA : a.requires = toB :: restA) (hrequiresB : b.requires = toA :: restB)
    (htoB : toB.manifest = urlB) (htoA : toA.manifest = urlA) :
    ∀ fuel, Legacy.addComponent net componentsDir .nil fuel urlA = none := by
  have both : ∀ fuel, Legacy.addComponent net componentsDir .nil fuel urlA = none ∧
      Legacy.addComponent net componentsDir .nil fuel urlB = none := by
    intro fuel
    induction fuel with
    | zero => exact ⟨rfl, rfl⟩
    | succ n ih =>
      constructor
      · exact legacy_addComponent_none_of_requirement net componentsDir n urlA a toB restA hA
          hcompleteA hrequiresA (htoB ▸ ih.2)
      · exact legacy_addComponent_none_of_requirement net componentsDir n urlB b toA restB hB
          hcompleteB hrequiresB (htoA ▸ ih.1)
  exact fun fuel => (both fuel).1

/-- Witness for C21: the registry in which `A` requires `B` and `B` requires `A`; without the
cycle the same call completes. -/
theorem legacy_addComponent_cycle_witness :
    (∀ fuel, Legacy.addComponent exNetCycle "components" .nil fuel
        "https://pkg.example/A.json" = none) ∧
      Legacy.addComponent exNet "components" .nil 2 "https://pkg.example/A.json" =
        some (some (exRecord "A" "1.0.0" [exRecord "B" "1.0.0" []]),
          [.fetch "https://pkg.example/A.json", .fetch "https://pkg.example/B.json",
            .fetch "https://pkg.example/B.jsx",
            .create "components/B.jsx" "export const B = 1;",
            .fetch "https://pkg.example/A.jsx",
            .create "components/A.jsx" "export const A = 1;"]) :=
  ⟨legacy_addComponent_cycle exNetCycle "components" "https://pkg.example/A.json"
      "https://pkg.example/B.json" (exDescriptor "A" "1.0.0" [("B", "1.0.0")])
      (exDescriptor "B" "1.0.0" [("A", "1.0.0")])
      { manifest := "https://pkg.example/B.json", version := "1.0.0", name := some "B" }
      { manifest := "https://pkg.example/A.json", version := "1.0.0", name := some "A" }
      [] [] (by decide) (by decide) (by decide) (by decide) (by decide) (by decide)
      (by decide) (by decide),
    by decide⟩

/-! ## A version is not an upgrade of itself -/

theorem codeUnitsLt_irrefl : ∀ l : List Nat, codeUnitsLt l l = false
  | [] => rfl
  | a :: as => by simp [codeUnitsLt, codeUnitsLt_irrefl as]

theorem jsGt_irrefl (x : Option String) : jsGt x x = false := by
  cases x with
  | none => rfl
  | some s => exact codeUnitsLt_irrefl _

/-- A version that `readSemver` accepts is not an upgrade of itself. -/
theorem isUpgrade_self_of_readSemver (version : String) (semver : Semver)
    (h : readSemver version = .ok semver) : isUpgrade version version = .ok false := by
  simp [isUpgrade, h, jsGt_irrefl]

theorem isDecimalDigit_not_whiteSpace (c : Char) (h : isDecimalDigit c = true) :
    isStrWhiteSpaceChar c = false := by
  simp only [isDecimalDigit, Bool.and_eq_true, decide_eq_true_eq] at h
  simp only [isStrWhiteSpaceChar, Bool.or_eq_false_iff, beq_eq_false_iff_ne, ne_eq,
    Bool.and_eq_false_iff, decide_eq_false_iff_not]
  omega

theorem dropWhile_eq_self_of_head {α : Type} (p : α → Bool) :
    ∀ l : List α, (∀ x, l.head? = some x → p x = false) → l.dropWhile p = l
  | [], _ => rfl
  | x :: xs, h => by simp [List.dropWhile, h x rfl]

theorem trimWhiteSpace_digits (cs : List Char) (h : cs.all isDecimalDigit = true) :
    trimWhiteSpace cs = cs := by
  rw [List.all_eq_true] at h
  unfold trimWhiteSpace
  have h₁ : cs.dropWhile isStrWhiteSpaceChar = cs :=
    dropWhile_eq_self_of_head _ _ fun x hx =>
      isDecimalDigit_not_whiteSpace x (h x (List.mem_of_mem_head? hx))
  rw [h₁]
  have h₂ : cs.reverse.dropWhile isStrWhiteSpaceChar = cs.reverse :=
    dropWhile_eq_self_of_head _ _ fun x hx =>
      isDecimalDigit_not_whiteSpace x (h x (List.mem_reverse.mp (List.mem_of_mem_head? hx)))
  rw [h₂, List.reverse_reverse]

theorem isStringNumericLiteral_digits (cs : List Char) (h : isDecimalDigits cs = true) :
    isStringNumericLiteral cs = true := by
  simp only [isDecimalDigits, Bool.and_eq_true, Bool.not_eq_true', List.isEmpty_eq_false] at h
  obtain ⟨hne, hall⟩ := h
  unfold isStringNumericLiteral
  simp only [trimWhiteSpace_digits cs hall]
  cases cs with
  | nil => exact absurd rfl hne
  | cons c rest =>
    have hc : isDecimalDigit c = true := by
      rw [List.all_eq_true] at hall
      exact hall c (List.mem_cons_self _ _)
    have hsign : ¬ (c = '+' ∨ c = '-') := by
      rintro (h | h) <;> subst h <;> exact absurd hc (by decide)
    have hdrop : List.dropWhile isDecimalDigit (c :: rest) = [] := by
      rw [List.dropWhile_eq_nil_iff]
      rw [List.all_eq_true] at hall
      exact hall
    have htake : List.takeWhile isDecimalDigit (c :: rest) = c :: rest := by
      rw [List.takeWhile_eq_self_iff]
      rw [List.all_eq_true] at hall
      exact hall
    simp only [isStrDecimalLiteral, if_neg hsign, isStrUnsignedDecimalLiteral, hdrop, htake,
      isExponentPartOpt]
    simp

/-- A well-formed version is accepted by `readSemver`. -/
theorem readSemver_wellFormed (version : String) (h : isWellFormedVersion version = true) :
    ∃ semver, readSemver version = .ok semver := by
  unfold isWellFormedVersion at h
  split at h
  · rename_i major minor patch hsplit
    simp only [Bool.and_eq_true] at h
    obtain ⟨⟨h₁, h₂⟩, h₃⟩ := h
    have hn₁ := isStringNumericLiteral_digits major h₁
    have hn₂ := isStringNumericLiteral_digits minor h₂
    have hn₃ := isStringNumericLiteral_digits patch h₃
    refine ⟨Semver.mk (some (String.mk major)) (some (String.mk minor))
      (some (String.mk patch)), ?_⟩
    simp [readSemver, validateSemver, split, hsplit, isNaN, hn₁, hn₂, hn₃]
  · simp at h

/-- C22: for every well-formed version `v` (three fields of decimal digits),
`isUpgrade(v, v)` is false. -/
theorem isUpgrade_self (version : String) (h : isWellFormedVersion version = true) :
    isUpgrade version version = .ok false := by
  obtain ⟨semver, hread⟩ := readSemver_wellFormed version h
  exact isUpgrade_self_of_readSemver version semver hread

/-- Witness for C22: the version `1.2.3`. -/
theorem isUpgrade_self_witness :
    isWellFormedVersion "1.2.3" = true ∧ isUpgrade "1.2.3" "1.2.3" = .ok false :=
  ⟨by decide, isUpgrade_self "1.2.3" (by decide)⟩

/-- On well-formed versions `isUpgrade` returns: the condition of `checkUpdates_returns` on
the versions holds whenever the installed and the remote versions are well-formed. -/
theorem isUpgrade_returns_of_wellFormed (current latest : String)
    (hcurrent : isWellFormedVersion current = true)
    (hlatest : isWellFormedVersion latest = true) :
    ∃ b, isUpgrade current latest = .ok b := by
  obtain ⟨c, hc⟩ := readSemver_wellFormed current hcurrent
  obtain ⟨l, hl⟩ := readSemver_wellFormed latest hlatest
  simp only [isUpgrade, hc, hl]
  split_ifs <;> exact ⟨_, rfl⟩

/-! ## A requirement that is not installed -/

/-- When no top-level record matches the name, by itself or by a direct requirement,
`checkDependency` reads `component.requires` on `undefined` and throws. -/
theorem checkDependency_of_not_found (net : Net) (components : Entries) (manifest : String)
    (d : Descriptor) (hfetch : net.json manifest = some d)
    (hnone : findComponent d.name components = .ok none) :
    checkDependency net components manifest = (.error .typeError, [.fetch manifest]) := by
  simp [checkDependency, hfetch, checkInstalled, hnone]

/-- C23 (the code departs from the claim): in the forest `[C]`, and in the empty forest, the
requirement `B` matches no top-level record and no direct requirement; `checkDependency` does
not return false but throws a `TypeError`, and `addComponent` of `A`, which requires `B`,
fails with it instead of resolving `B`. -/
theorem checkDependency_not_found_throws :
    findComponent (some "B") (.ofList [exRecord "C" "1.0.0" []]) = .ok none ∧
      checkDependency exNet (.ofList [exRecord "C" "1.0.0" []]) "https://pkg.example/B.json" =
        (.error .typeError, [.fetch "https://pkg.example/B.json"]) ∧
      checkDependency exNet .nil "https://pkg.example/B.json" =
        (.error .typeError, [.fetch "https://pkg.example/B.json"]) ∧
      addComponent exNet "components" (.ofList [exRecord "C" "1.0.0" []]) 2
          "https://pkg.example/A.json" =
        some (.error .typeError,
          [.fetch "https://pkg.example/A.json", .fetch "https://pkg.example/B.json"]) ∧
      addComponent exNet "components" .nil 2 "https://pkg.example/A.json" =
        some (.error .typeError,
          [.fetch "https://pkg.example/A.json", .fetch "https://pkg.example/B.json"]) := by
  decide

/-! ## What the main `updateManifest` persists -/

theorem findByName_ofList (name : String) :
    ∀ us : List Component,
      findByName (some name) (.ofList us) = .ok (us.find? fun u => decide (u.name = name))
  | [] => rfl
  | u :: us => by
    simp only [Entries.ofList, findByName, List.find?]
    by_cases h : u.name = name
    · simp [h]
    · simp [h, findByName_ofList name us]

theorem mergeComponents_ofList (us : List Component) :
    ∀ persisted : Entries,
      mergeComponents (.ofList us) persisted =
        .ok (.ofList ((persisted.toList.filterMap id).map fun c =>
          (us.find? fun u => decide (u.name = c.name)).getD c))
  | .nil => rfl
  | .null rest => by
    simp only [mergeComponents, Entries.toList, List.filterMap_cons, id]
    exact mergeComponents_ofList us rest
  | .cons c rest => by
    simp only [mergeComponents, findByName_ofList, mergeComponents_ofList us rest,
      Entries.toList, List.filterMap_cons, id, List.map_cons, Entries.ofList]

/-- C24: the main `updateManifest(f)` leaves the persisted list with the same sequence of
names as before, empty slots dropped; and when `f` has no empty top-level slot and the
front-matter call goes through, each persisted record is replaced by the first record of `f`
with the same name, or kept when `f` has none: nothing is added and nothing is removed. -/
theorem updateManifest_merges_by_name (host : Host) (componentsDir : String) (f : Entries)
    (s : State) (persisted : Entries) (hdoc : s.document = some persisted) :
    (∃ merged, (updateManifest host componentsDir f s).state.document = some merged ∧
        merged.topNames = persisted.topNames) ∧
      (∀ us, f = .ofList us → host.processFrontMatter = none →
        (updateManifest host componentsDir f s).state.document =
          some (.ofList ((persisted.toList.filterMap id).map fun c =>
            (us.find? fun u => decide (u.name = c.name)).getD c))) := by
  constructor
  · unfold updateManifest
    rcases host.processFrontMatter with _ | e
    · simp only [hdoc]
      rcases hm : mergeComponents f persisted with _ | merged
      · exact ⟨persisted, hdoc, rfl⟩
      · have hnames := mergeComponents_topNames f persisted merged hm
        simp only
        rcases host.write (componentsDir ++ "/index.js") with _ | e
        · exact ⟨merged, rfl, hnames⟩
        · exact ⟨merged, rfl, hnames⟩
    · exact ⟨persisted, hdoc, rfl⟩
  · intro us hf hsave
    subst hf
    unfold updateManifest
    simp only [hsave, hdoc, mergeComponents_ofList]
    rcases host.write (componentsDir ++ "/index.js") with _ | e <;> rfl

/-- Witness for C24: with `[B, C]` persisted, saving `[A, B 2.0.0]` persists `[B 2.0.0, C]`. -/
theorem updateManifest_merges_by_name_witness :
    (∃ merged, (updateManifest exHost "components"
          (.ofList [exRecord "A" "1.0.0" [], exRecord "B" "2.0.0" []])
          (exState (.ofList [exRecord "B" "1.0.0" [], exRecord "C" "1.0.0" []]))).state.document
          = some merged ∧
        merged.topNames =
          (Entries.ofList [exRecord "B" "1.0.0" [], exRecord "C" "1.0.0" []]).topNames) ∧
      (updateManifest exHost "components"
          (.ofList [exRecord "A" "1.0.0" [], exRecord "B" "2.0.0" []])
          (exState (.ofList [exRecord "B" "1.0.0" [], exRecord "C" "1.0.0" []]))).state.document
        = some (.ofList [exRecord "B" "2.0.0" [], exRecord "C" "1.0.0" []]) :=
  ⟨(updateManifest_merges_by_name exHost "components"
      (.ofList [exRecord "A" "1.0.0" [], exRecord "B" "2.0.0" []])
      (exState (.ofList [exRecord "B" "1.0.0" [], exRecord "C" "1.0.0" []]))
      (.ofList [exRecord "B" "1.0.0" [], exRecord "C" "1.0.0" []]) rfl).1,
    by decide⟩

/-! ## The two implementations of `updateIndex` -/

theorem legacy_addExportsOuter_ofList :
    ∀ (cs : List Component) (acc : List String),
      Legacy.addExportsOuter acc (.ofList cs) = .ok (addExportsEach acc (.ofList cs))
  | [], _ => rfl
  | c :: cs, acc => by
    simp only [Entries.ofList, Legacy.addExportsOuter, addExportsEach, legacy_addExports_eq,
      legacy_addExportsOuter_ofList cs]

/-- C25: on every forest whose top-level slots all hold records (`Entries.ofList cs`; the
nested slots are free), the two implementations of `updateIndex` export the same names and
make the same vault call with the same text. With an empty top-level slot the earlier one
throws where the main one skips the slot. -/
theorem legacy_updateIndex_eq (fileExists : String → Bool) (componentsDir : String)
    (cs : List Component) :
    Legacy.allExports (.ofList cs) = .ok (allExports (.ofList cs)) ∧
      Legacy.updateIndex fileExists componentsDir (.ofList cs) =
        .ok (updateIndex fileExists componentsDir (.ofList cs)) ∧
      Legacy.allExports exForestNestedNull = .ok ["A", "B", "C"] ∧
      allExports exForestNestedNull = ["A", "B", "C"] ∧
      Legacy.allExports (.null exForestTop) = .error .typeError ∧
      allExports (.null exForestTop) = ["B"] := by
  have h : Legacy.allExports (.ofList cs) = .ok (allExports (.ofList cs)) :=
    legacy_addExportsOuter_ofList cs []
  refine ⟨h, ?_, by decide, by decide, by decide, by decide⟩
  simp only [Legacy.updateIndex, h, updateIndex, indexCode]
  by_cases hf : fileExists (componentsDir ++ "/index.js") = true <;> simp [hf]

/-! ## Exports of a forest whose names identify what they require -/

/-- C26: for every forest in which records with the same name, at any depth, require the same
things, the names exported by `updateIndex` are the first-occurrence deduplication of the full
depth-first pre-order sequence of names: a name is exported exactly when it occurs in the
forest, and the index text lists these names, although `addExports` does not walk below a
record whose name is already exported. -/
theorem allExports_of_consistent (f : Entries) (hf : f.Consistent) :
    allExports f = dedupFirst f.names ∧ (∀ n, n ∈ allExports f ↔ n ∈ f.names) ∧
      indexCode f = join "\n" ((dedupFirst f.names).map exportStatement) := by
  have heq : allExports f = accumulate [] f.names :=
    addExportsEach_eq_accumulate f [] hf (fun _ _ h => absurd h (List.not_mem_nil _))
  refine ⟨heq, fun n => ?_, by rw [indexCode, heq, dedupFirst]⟩
  rw [heq, mem_accumulate]
  simp

/-- Witness for C26: in `[A(requires=[B]), B]` the second `B` is skipped and nothing is
lost. -/
theorem allExports_of_consistent_witness :
    exForestBoth.Consistent ∧ allExports exForestBoth = dedupFirst exForestBoth.names ∧
      (∀ n, n ∈ allExports exForestBoth ↔ n ∈ exForestBoth.names) ∧
      indexCode exForestBoth =
        join "\n" ((dedupFirst exForestBoth.names).map exportStatement) ∧
      exForestBoth.names = ["A", "B", "B"] ∧ allExports exForestBoth = ["A", "B"] :=
  ⟨by unfold Entries.Consistent; decide,
    (allExports_of_consistent exForestBoth (by unfold Entries.Consistent; decide)).1,
    (allExports_of_consistent exForestBoth (by unfold Entries.Consistent; decide)).2.1,
    (allExports_of_consistent exForestBoth (by unfold Entries.Consistent; decide)).2.2,
    by decide, by decide⟩

end ECM
